import Mathlib

/-!
# Verification of the DBBS faculty-match similarity engine

Shallow embedding of the similarity search, ranking, embedding-index
construction, worker-protocol decoding and column-role inference code of
`src/dbbs-faculty-match/src-tauri/src/lib.rs`.

Machine floating-point numbers (`f32`/`f64`) are idealised as exact rational
numbers.  The value of a cosine similarity, `dot / (sqrt na * sqrt nb)`, is
irrational in general; it is represented by the computable record `Sim`
holding the three rational accumulators of the source loop, together with a
noncomputable real-valued interpretation `Sim.val` and a computable order
relation `Sim.le` proven to agree with the real order on `Sim.val`.
-/

set_option maxHeartbeats 1000000

namespace DBBS

open scoped List

/-- Sum of squares of a rational list (the `norm_a`/`norm_b` accumulators of
`cosine_similarity` applied to a full vector). -/
def sumSq (l : List ℚ) : ℚ := (l.map fun x => x * x).sum

theorem sumSq_nonneg (l : List ℚ) : 0 ≤ sumSq l := by
  apply List.sum_nonneg
  intro x hx
  obtain ⟨y, _, rfl⟩ := List.mem_map.mp hx
  exact mul_self_nonneg y

/-- Model of Rust `str::trim` (whitespace idealised to ASCII whitespace),
kernel-computable over the character list. -/
def strTrim (s : String) : String :=
  ⟨((s.data.dropWhile Char.isWhitespace).reverse.dropWhile Char.isWhitespace).reverse⟩

/-- Model of Rust `str::to_lowercase` (ASCII case folding). -/
def strToLower (s : String) : String := ⟨s.data.map Char.toLower⟩

/-- Kernel-computable prefix test (Rust `str::starts_with` /
`strip_prefix(..).is_some()`). -/
def strStartsWith (s p : String) : Bool := decide (p.data <+: s.data)

/-- The similarity value produced by `cosine_similarity`: the dot product and
the two squared norms, with the positivity facts established by the source's
zero-norm check.  The real value it denotes is `Sim.val`. -/
structure Sim where
  dot : ℚ
  na : ℚ
  nb : ℚ
  na_pos : 0 < na
  nb_pos : 0 < nb

/-- The real number denoted by a `Sim`: `dot / (sqrt norm_a * sqrt norm_b)`,
exactly the expression returned by `cosine_similarity`. -/
noncomputable def Sim.val (s : Sim) : ℝ :=
  (s.dot : ℝ) / (Real.sqrt (s.na : ℝ) * Real.sqrt (s.nb : ℝ))

/-- Computable comparison of two similarity values, by sign analysis and
cross-multiplied squares (no square roots needed). -/
def Sim.le (s t : Sim) : Prop :=
  (s.dot ≤ 0 ∧ 0 ≤ t.dot) ∨
  (0 < s.dot ∧ 0 < t.dot ∧ s.dot ^ 2 * (t.na * t.nb) ≤ t.dot ^ 2 * (s.na * s.nb)) ∨
  (s.dot < 0 ∧ t.dot < 0 ∧ t.dot ^ 2 * (s.na * s.nb) ≤ s.dot ^ 2 * (t.na * t.nb))

instance (s t : Sim) : Decidable (Sim.le s t) := by
  unfold Sim.le; infer_instance

/-- Sign-and-square characterisation of `x * B ≤ y * A` for positive `A, B`. -/
theorem mul_le_mul_sign_sq {x y A B : ℝ} (hA : 0 < A) (hB : 0 < B) :
    x * B ≤ y * A ↔
      (x ≤ 0 ∧ 0 ≤ y) ∨
      (0 < x ∧ 0 < y ∧ x ^ 2 * B ^ 2 ≤ y ^ 2 * A ^ 2) ∨
      (x < 0 ∧ y < 0 ∧ y ^ 2 * A ^ 2 ≤ x ^ 2 * B ^ 2) := by
  rcases le_or_lt x 0 with hx | hx
  · rcases le_or_lt 0 y with hy | hy
    · constructor
      · intro _; exact Or.inl ⟨hx, hy⟩
      · intro _; nlinarith
    · rcases eq_or_lt_of_le hx with hx0 | hx0
      · constructor
        · intro h; exfalso; nlinarith
        · rintro (⟨_, h2⟩ | ⟨h1, _, _⟩ | ⟨h1, _, _⟩)
          · linarith
          · linarith
          · linarith
      · have key := mul_self_le_mul_self_iff (a := -(y * A)) (b := -(x * B))
          (by nlinarith) (by nlinarith)
        constructor
        · intro h
          refine Or.inr (Or.inr ⟨hx0, hy, ?_⟩)
          have := key.mp (by linarith)
          nlinarith
        · rintro (⟨_, h2⟩ | ⟨h1, _, _⟩ | ⟨_, _, h3⟩)
          · linarith
          · linarith
          · have := key.mpr (by nlinarith)
            linarith
  · rcases le_or_lt y 0 with hy | hy
    · constructor
      · intro h; exfalso; nlinarith
      · rintro (⟨h1, _⟩ | ⟨_, h2, _⟩ | ⟨h1, _, _⟩)
        · linarith
        · linarith
        · linarith
    · have key := mul_self_le_mul_self_iff (a := x * B) (b := y * A)
        (by positivity) (by positivity)
      constructor
      · intro h
        refine Or.inr (Or.inl ⟨hx, hy, ?_⟩)
        have := key.mp h
        nlinarith
      · rintro (⟨h1, _⟩ | ⟨_, _, h3⟩ | ⟨h1, _, _⟩)
        · linarith
        · exact key.mpr (by nlinarith)
        · linarith

/-- The computable order `Sim.le` agrees with the real order on values. -/
theorem Sim.le_iff_val_le (s t : Sim) : Sim.le s t ↔ s.val ≤ t.val := by
  have hsa : (0 : ℝ) < Real.sqrt (s.na : ℝ) := Real.sqrt_pos.mpr (by exact_mod_cast s.na_pos)
  have hsb : (0 : ℝ) < Real.sqrt (s.nb : ℝ) := Real.sqrt_pos.mpr (by exact_mod_cast s.nb_pos)
  have hta : (0 : ℝ) < Real.sqrt (t.na : ℝ) := Real.sqrt_pos.mpr (by exact_mod_cast t.na_pos)
  have htb : (0 : ℝ) < Real.sqrt (t.nb : ℝ) := Real.sqrt_pos.mpr (by exact_mod_cast t.nb_pos)
  have hA : (0 : ℝ) < Real.sqrt (s.na : ℝ) * Real.sqrt (s.nb : ℝ) := mul_pos hsa hsb
  have hB : (0 : ℝ) < Real.sqrt (t.na : ℝ) * Real.sqrt (t.nb : ℝ) := mul_pos hta htb
  have hA2 : (Real.sqrt (s.na : ℝ) * Real.sqrt (s.nb : ℝ)) ^ 2 = (s.na : ℝ) * (s.nb : ℝ) := by
    rw [mul_pow, Real.sq_sqrt (by exact_mod_cast s.na_pos.le),
      Real.sq_sqrt (by exact_mod_cast s.nb_pos.le)]
  have hB2 : (Real.sqrt (t.na : ℝ) * Real.sqrt (t.nb : ℝ)) ^ 2 = (t.na : ℝ) * (t.nb : ℝ) := by
    rw [mul_pow, Real.sq_sqrt (by exact_mod_cast t.na_pos.le),
      Real.sq_sqrt (by exact_mod_cast t.nb_pos.le)]
  rw [Sim.val, Sim.val, div_le_div_iff₀ hA hB]
  rw [mul_le_mul_sign_sq hA hB]
  rw [hA2, hB2]
  unfold Sim.le
  constructor
  · rintro (⟨h1, h2⟩ | ⟨h1, h2, h3⟩ | ⟨h1, h2, h3⟩)
    · exact Or.inl ⟨by exact_mod_cast h1, by exact_mod_cast h2⟩
    · exact Or.inr (Or.inl ⟨by exact_mod_cast h1, by exact_mod_cast h2, by exact_mod_cast h3⟩)
    · exact Or.inr (Or.inr ⟨by exact_mod_cast h1, by exact_mod_cast h2, by exact_mod_cast h3⟩)
  · rintro (⟨h1, h2⟩ | ⟨h1, h2, h3⟩ | ⟨h1, h2, h3⟩)
    · exact Or.inl ⟨by exact_mod_cast h1, by exact_mod_cast h2⟩
    · exact Or.inr (Or.inl ⟨by exact_mod_cast h1, by exact_mod_cast h2, by exact_mod_cast h3⟩)
    · exact Or.inr (Or.inr ⟨by exact_mod_cast h1, by exact_mod_cast h2, by exact_mod_cast h3⟩)

theorem Sim.leTotal (s t : Sim) : Sim.le s t ∨ Sim.le t s := by
  rw [Sim.le_iff_val_le, Sim.le_iff_val_le]
  exact LinearOrder.le_total s.val t.val

theorem Sim.leTrans {s t u : Sim} (h₁ : Sim.le s t) (h₂ : Sim.le t u) : Sim.le s u := by
  rw [Sim.le_iff_val_le] at h₁ h₂ ⊢
  exact h₁.trans h₂

/-- Computable test for equality of the denoted real similarity values
(the `f32` equality that makes a tie in the source's comparators). -/
def Sim.eqv (s t : Sim) : Prop := Sim.le s t ∧ Sim.le t s

instance (s t : Sim) : Decidable (Sim.eqv s t) := by
  unfold Sim.eqv; infer_instance

theorem Sim.eqv_iff_val_eq (s t : Sim) : Sim.eqv s t ↔ s.val = t.val := by
  unfold Sim.eqv
  rw [Sim.le_iff_val_le, Sim.le_iff_val_le]
  exact ⟨fun ⟨h₁, h₂⟩ => le_antisymm h₁ h₂, fun h => ⟨h.le, h.ge⟩⟩

/-!
## `cosine_similarity` (lib.rs lines 2117-2139)

```rust
fn cosine_similarity(a: &[f32], b: &[f32]) -> Option<f32> {
    if a.len() != b.len() || a.is_empty() { return None; }
    let mut dot = 0.0f64; let mut norm_a = 0.0f64; let mut norm_b = 0.0f64;
    for (&x, &y) in a.iter().zip(b.iter()) {
        dot += x*y; norm_a += x*x; norm_b += y*y;
    }
    if norm_a == 0.0 || norm_b == 0.0 { return None; }
    Some((dot / (norm_a.sqrt() * norm_b.sqrt())) as f32)
}
```
-/

def cosine_similarity (a b : List ℚ) : Option Sim :=
  if a.length ≠ b.length ∨ a = [] then none
  else
    let dot := ((a.zip b).map fun p => p.1 * p.2).sum
    let norm_a := ((a.zip b).map fun p => p.1 * p.1).sum
    let norm_b := ((a.zip b).map fun p => p.2 * p.2).sum
    if h : norm_a = 0 ∨ norm_b = 0 then none
    else
      some
        { dot := dot
          na := norm_a
          nb := norm_b
          na_pos := by
            have hnn : 0 ≤ norm_a := by
              apply List.sum_nonneg
              intro x hx
              obtain ⟨p, _, rfl⟩ := List.mem_map.mp hx
              exact mul_self_nonneg p.1
            exact lt_of_le_of_ne hnn (fun h0 => h (Or.inl h0.symm))
          nb_pos := by
            have hnn : 0 ≤ norm_b := by
              apply List.sum_nonneg
              intro x hx
              obtain ⟨p, _, rfl⟩ := List.mem_map.mp hx
              exact mul_self_nonneg p.2
            exact lt_of_le_of_ne hnn (fun h0 => h (Or.inr h0.symm)) }

theorem sumSq_cons (x : ℚ) (xs : List ℚ) : sumSq (x :: xs) = x * x + sumSq xs := by
  simp [sumSq]

theorem zip_map_fst_sq : ∀ (a b : List ℚ), a.length = b.length →
    ((a.zip b).map fun p => p.1 * p.1).sum = sumSq a
  | [], _, _ => by simp [sumSq]
  | _ :: _, [], h => by simp at h
  | x :: xs, y :: ys, h => by
    have h' : xs.length = ys.length := by simpa using h
    simp only [List.zip_cons_cons, List.map_cons, List.sum_cons]
    rw [zip_map_fst_sq xs ys h', sumSq_cons]

theorem zip_map_snd_sq : ∀ (a b : List ℚ), a.length = b.length →
    ((a.zip b).map fun p => p.2 * p.2).sum = sumSq b
  | [], [], _ => by simp [sumSq]
  | [], _ :: _, h => by simp at h
  | _ :: _, [], h => by simp at h
  | x :: xs, y :: ys, h => by
    have h' : xs.length = ys.length := by simpa using h
    simp only [List.zip_cons_cons, List.map_cons, List.sum_cons]
    rw [zip_map_snd_sq xs ys h', sumSq_cons]

theorem zip_map_mul_comm : ∀ (a b : List ℚ),
    ((a.zip b).map fun p => p.1 * p.2).sum = ((b.zip a).map fun p => p.1 * p.2).sum
  | [], b => by simp
  | _ :: _, [] => by simp
  | x :: xs, y :: ys => by
    simp only [List.zip_cons_cons, List.map_cons, List.sum_cons]
    rw [zip_map_mul_comm xs ys, mul_comm x y]

theorem zip_self_map_mul : ∀ (a : List ℚ),
    ((a.zip a).map fun p => p.1 * p.2).sum = sumSq a
  | [] => by simp [sumSq]
  | x :: xs => by
    simp only [List.zip_cons_cons, List.map_cons, List.sum_cons]
    rw [zip_self_map_mul xs, sumSq_cons]

/-- On success, `cosine_similarity` returns the dot product over the zipped
vectors together with the two squared norms. -/
theorem cosine_similarity_eq_some (a b : List ℚ) (hlen : a.length = b.length)
    (ha : a ≠ []) (hna : sumSq a ≠ 0) (hnb : sumSq b ≠ 0) :
    ∃ s : Sim, cosine_similarity a b = some s ∧
      s.dot = ((a.zip b).map fun p => p.1 * p.2).sum ∧
      s.na = sumSq a ∧ s.nb = sumSq b := by
  have hz1 := zip_map_fst_sq a b hlen
  have hz2 := zip_map_snd_sq a b hlen
  simp only [cosine_similarity]
  split_ifs with h1 h2
  · exact absurd h1 (by simp [hlen, ha])
  · rw [hz1, hz2] at h2
    rcases h2 with h2 | h2
    · exact absurd h2 hna
    · exact absurd h2 hnb
  · exact ⟨_, rfl, rfl, hz1, hz2⟩

/-- **C3.** `cosine_similarity` returns no value exactly when the lengths
differ, the inputs are empty, or either vector has zero norm; it never
fails otherwise (total function, no crash). -/
theorem cosine_similarity_none_iff (a b : List ℚ) :
    cosine_similarity a b = none ↔
      a.length ≠ b.length ∨ a = [] ∨ b = [] ∨ sumSq a = 0 ∨ sumSq b = 0 := by
  simp only [cosine_similarity]
  split_ifs with h1 h2
  · simp only [true_iff]
    tauto
  · push_neg at h1
    obtain ⟨hlen, _⟩ := h1
    rw [zip_map_fst_sq a b hlen, zip_map_snd_sq a b hlen] at h2
    simp only [true_iff]
    tauto
  · push_neg at h1
    obtain ⟨hlen, hne⟩ := h1
    rw [zip_map_fst_sq a b hlen, zip_map_snd_sq a b hlen] at h2
    push_neg at h2
    simp only [reduceCtorEq, false_iff]
    push_neg
    refine ⟨hlen, hne, ?_, h2.1, h2.2⟩
    intro hb
    apply hne
    rw [← List.length_eq_zero, hlen, hb]
    rfl

/-- **C4.** For equal-length positive-norm vectors, cosine similarity is
symmetric in its arguments, and the self-similarity of a vector is exactly 1
(the source computes `na / (sqrt na * sqrt na)`). -/
theorem cosine_similarity_symm_self (a b : List ℚ)
    (hlen : a.length = b.length) (ha : sumSq a ≠ 0) (hb : sumSq b ≠ 0) :
    (cosine_similarity a b).map Sim.val = (cosine_similarity b a).map Sim.val ∧
    ∃ u : Sim, cosine_similarity a a = some u ∧ u.val = 1 := by
  have ha' : a ≠ [] := by
    intro h
    exact ha (by simp [h, sumSq])
  have hb' : b ≠ [] := by
    intro h
    exact hb (by simp [h, sumSq])
  obtain ⟨s, hs, hsdot, hsna, hsnb⟩ := cosine_similarity_eq_some a b hlen ha' ha hb
  obtain ⟨t, ht, htdot, htna, htnb⟩ := cosine_similarity_eq_some b a hlen.symm hb' hb ha
  obtain ⟨u, hu, hudot, huna, hunb⟩ := cosine_similarity_eq_some a a rfl ha' ha ha
  constructor
  · rw [hs, ht, Option.map_some', Option.map_some']
    have hval : s.val = t.val := by
      unfold Sim.val
      rw [hsdot, hsna, hsnb, htdot, htna, htnb, zip_map_mul_comm a b, mul_comm]
    rw [hval]
  · refine ⟨u, hu, ?_⟩
    unfold Sim.val
    rw [hudot, huna, hunb, zip_self_map_mul]
    have hnn : (0 : ℝ) ≤ (sumSq a : ℝ) := by exact_mod_cast sumSq_nonneg a
    rw [Real.mul_self_sqrt hnn]
    apply div_self
    exact_mod_cast ha

/-- Witness for C4 at `a = [1, 2]`, `b = [3, 4]`. -/
theorem cosine_similarity_symm_self_witness :
    ([(1 : ℚ), 2].length = [(3 : ℚ), 4].length ∧
      sumSq [(1 : ℚ), 2] ≠ 0 ∧ sumSq [(3 : ℚ), 4] ≠ 0) ∧
    ((cosine_similarity [(1 : ℚ), 2] [3, 4]).map Sim.val =
        (cosine_similarity [(3 : ℚ), 4] [1, 2]).map Sim.val ∧
      ∃ u : Sim, cosine_similarity [(1 : ℚ), 2] [1, 2] = some u ∧ u.val = 1) :=
  ⟨⟨rfl, by norm_num [sumSq], by norm_num [sumSq]⟩,
    cosine_similarity_symm_self [1, 2] [3, 4] rfl (by norm_num [sumSq]) (by norm_num [sumSq])⟩

/-!
## Data model (lib.rs lines 755-807) and `find_best_faculty_matches`
(lib.rs lines 924-970)

`HashMap<String, String>` identifier maps are modelled as association lists;
`HashSet<usize>` as `Finset ℕ`.  Rust's `Vec::sort_by` is a stable sort with
respect to the comparator's induced total preorder, modelled by the (stable)
`List.insertionSort`.
-/

structure FacultyEmbeddingEntry where
  row_index : ℕ
  identifiers : List (String × String)
  embedding : List ℚ

structure FacultyEmbeddingIndex where
  model : String
  generated_at : Option String
  dimension : ℕ
  total_rows : Option ℕ
  embedded_rows : Option ℕ
  skipped_rows : Option ℕ
  embedding_columns : List String
  identifier_columns : List String
  entries : List FacultyEmbeddingEntry

structure FacultyMatchResult where
  row_index : ℕ
  similarity : Sim
  identifiers : List (String × String)
  faculty_text : Option String
  student_rank_for_faculty : Option ℕ
  student_rank_total : Option ℕ

/-- The sort relation of `find_best_faculty_matches`'s
`candidates.sort_by(|a, b| b.similarity.partial_cmp(&a.similarity)...)`:
`a` may precede `b` exactly when the comparator does not return `Greater`,
i.e. when `b.similarity ≤ a.similarity`. -/
def matchLe (x y : FacultyMatchResult) : Prop := Sim.le y.similarity x.similarity

instance : DecidableRel matchLe := fun x y =>
  inferInstanceAs (Decidable (Sim.le y.similarity x.similarity))

instance : IsTotal FacultyMatchResult matchLe :=
  ⟨fun x y => (Sim.leTotal y.similarity x.similarity).imp id id⟩

instance : IsTrans FacultyMatchResult matchLe :=
  ⟨fun _ _ _ hxy hyz => Sim.leTrans hyz hxy⟩

/-- The filter-and-score pass of `find_best_faculty_matches` (the
`filter_map` over `index.entries`): an entry is dropped if the optional
allowed-row filter excludes it, its vector length mismatches the query, or
its cosine similarity is undefined. -/
def eligible_candidates (index : FacultyEmbeddingIndex) (prompt_embedding : List ℚ)
    (allowed_rows : Option (Finset ℕ)) : List FacultyMatchResult :=
  index.entries.filterMap fun entry =>
    if (match allowed_rows with
        | some allowed => decide (entry.row_index ∈ allowed)
        | none => true) then
      if entry.embedding.length = prompt_embedding.length then
        (cosine_similarity prompt_embedding entry.embedding).map fun s =>
          { row_index := entry.row_index
            similarity := s
            identifiers := entry.identifiers.filter fun kv => !(strTrim kv.2 == "")
            faculty_text := none
            student_rank_for_faculty := none
            student_rank_total := none }
      else none
    else none

def find_best_faculty_matches (index : FacultyEmbeddingIndex) (prompt_embedding : List ℚ)
    (limit : ℕ) (allowed_rows : Option (Finset ℕ)) : List FacultyMatchResult :=
  if limit = 0 then []
  else ((eligible_candidates index prompt_embedding allowed_rows).insertionSort matchLe).take limit

/-- Unpacking membership in the eligible-candidate list. -/
theorem mem_eligible_candidates {index : FacultyEmbeddingIndex} {q : List ℚ}
    {allowed_rows : Option (Finset ℕ)} {m : FacultyMatchResult}
    (hm : m ∈ eligible_candidates index q allowed_rows) :
    ∃ e ∈ index.entries,
      m.row_index = e.row_index ∧
      (∀ allowed ∈ allowed_rows, e.row_index ∈ allowed) ∧
      e.embedding.length = q.length ∧
      cosine_similarity q e.embedding = some m.similarity := by
  obtain ⟨e, he, hfe⟩ := List.mem_filterMap.mp hm
  refine ⟨e, he, ?_⟩
  split at hfe
  case isTrue hallow =>
    split at hfe
    case isTrue hlen =>
      obtain ⟨s, hs, hsm⟩ := Option.map_eq_some'.mp hfe
      refine ⟨by rw [← hsm], ?_, hlen, by rw [hs, ← hsm]⟩
      intro allowed hal
      cases allowed_rows with
      | none => simp at hal
      | some al =>
        obtain rfl : al = allowed := by simpa using hal
        simpa using hallow
    case isFalse hlen => simp at hfe
  case isFalse hallow => simp at hfe

/-- **C1.** `find_best_faculty_matches` returns at most `limit` results,
sorted by non-increasing similarity value, tied results keeping their
original (entry) order — the result restricted to any similarity tie class
is a sublist of the eligible-candidates list, which lists entries in their
original order; every result comes from an entry that passed the filter,
has the query's vector length and a defined similarity; and `limit = 0`
gives the empty list. -/
theorem find_best_faculty_matches_spec (index : FacultyEmbeddingIndex)
    (q : List ℚ) (limit : ℕ) (allowed_rows : Option (Finset ℕ)) :
    (find_best_faculty_matches index q limit allowed_rows).length ≤ limit ∧
    (find_best_faculty_matches index q limit allowed_rows).Pairwise
      (fun x y => y.similarity.val ≤ x.similarity.val) ∧
    (∀ v : Sim,
      ((find_best_faculty_matches index q limit allowed_rows).filter
          fun m => decide (Sim.eqv m.similarity v)) <+
        eligible_candidates index q allowed_rows) ∧
    (∀ m ∈ find_best_faculty_matches index q limit allowed_rows,
      ∃ e ∈ index.entries,
        m.row_index = e.row_index ∧
        (∀ allowed ∈ allowed_rows, e.row_index ∈ allowed) ∧
        e.embedding.length = q.length ∧
        cosine_similarity q e.embedding = some m.similarity) ∧
    (limit = 0 → find_best_faculty_matches index q limit allowed_rows = []) := by
  by_cases hlim : limit = 0
  · subst hlim
    simp [find_best_faculty_matches]
  · have hunfold : find_best_faculty_matches index q limit allowed_rows =
        ((eligible_candidates index q allowed_rows).insertionSort matchLe).take limit := by
      rw [find_best_faculty_matches, if_neg hlim]
    set cands := eligible_candidates index q allowed_rows with hcands
    have hsorted : (cands.insertionSort matchLe).Pairwise matchLe :=
      List.sorted_insertionSort matchLe cands
    have hperm : cands.insertionSort matchLe ~ cands := List.perm_insertionSort matchLe cands
    refine ⟨?_, ?_, ?_, ?_, fun h => absurd h hlim⟩
    · rw [hunfold]
      exact List.length_take_le limit _
    · rw [hunfold]
      refine (List.Pairwise.sublist (List.take_sublist limit _) hsorted).imp ?_
      intro x y hxy
      exact (Sim.le_iff_val_le _ _).mp hxy
    · intro v
      rw [hunfold]
      set p : FacultyMatchResult → Bool := fun m => decide (Sim.eqv m.similarity v) with hp
      have hc_pair : (cands.filter p).Pairwise matchLe := by
        apply List.pairwise_of_forall_mem_list
        intro a ha b hb
        have ha' : Sim.eqv a.similarity v := by
          have := List.of_mem_filter ha
          simpa [hp] using this
        have hb' : Sim.eqv b.similarity v := by
          have := List.of_mem_filter hb
          simpa [hp] using this
        have : b.similarity.val = a.similarity.val := by
          rw [(Sim.eqv_iff_val_eq _ _).mp hb', (Sim.eqv_iff_val_eq _ _).mp ha']
        exact (Sim.le_iff_val_le _ _).mpr this.le
      have hc_sub : cands.filter p <+ cands.insertionSort matchLe :=
        List.sublist_insertionSort hc_pair (List.filter_sublist cands)
      have hfilter_eq : (cands.insertionSort matchLe).filter p = cands.filter p := by
        have h1 : (cands.filter p).filter p = cands.filter p := by
          rw [List.filter_eq_self]
          intro a ha
          exact List.of_mem_filter ha
        have h2 : cands.filter p <+ (cands.insertionSort matchLe).filter p := by
          have := hc_sub.filter p
          rwa [h1] at this
        have h3 : (cands.insertionSort matchLe).filter p ~ cands.filter p := hperm.filter p
        exact (h2.eq_of_length h3.length_eq.symm).symm
      have t1 : ((cands.insertionSort matchLe).take limit).filter p <+
          (cands.insertionSort matchLe).filter p :=
        (List.take_sublist limit _).filter p
      rw [hfilter_eq] at t1
      exact t1.trans (List.filter_sublist cands)
    · intro m hm
      rw [hunfold] at hm
      have hm' : m ∈ cands := hperm.subset ((List.take_sublist limit _).subset hm)
      exact mem_eligible_candidates hm'

/-!
## `assign_student_rankings` (lib.rs lines 972-1033)

The source groups `(prompt_index, match_index, similarity)` triples by
candidate `row_index` in a `HashMap`, sorts each group by similarity
descending with ties broken by prompt index then match index, and writes
`position + 1` / group size through a rank map keyed by
`(prompt_index, match_index)`.  The groups are disjoint across row indices,
so the rank map is modelled by a per-match lookup into the sorted group of
that match's own row index.  The `match_sets.is_empty()` and
`occurrences.is_empty()` early returns of the source coincide with the
general path (there are no matches to rewrite) and are modelled by it.
-/

/-- One grouped occurrence: prompt (query) index, match position and the
similarity recorded in the match. -/
structure Occ where
  prompt : ℕ
  pos : ℕ
  sim : Sim

/-- The occurrences pushed for row `r` while scanning match set `i = ms`:
entries keep the scan order (ascending match position). -/
def occBlock (r : ℕ) (i : ℕ) (ms : List FacultyMatchResult) : List Occ :=
  ms.enum.filterMap fun pj =>
    if pj.2.row_index = r then some ⟨i, pj.1, pj.2.similarity⟩ else none

/-- `occurrences[r]`: all occurrences of candidate row `r`, in insertion
order (ascending prompt index, then ascending match position). -/
def occurrencesOf (sets : List (List FacultyMatchResult)) (r : ℕ) : List Occ :=
  (sets.enum.map fun pi => occBlock r pi.1 pi.2).flatten

/-- The group sort relation: similarity descending, ties broken by prompt
index ascending, then match position ascending (`entries.sort_by`). -/
def occLe (a b : Occ) : Prop :=
  (Sim.le b.sim a.sim ∧ ¬Sim.le a.sim b.sim) ∨
  (Sim.le a.sim b.sim ∧ Sim.le b.sim a.sim ∧
    (a.prompt < b.prompt ∨ (a.prompt = b.prompt ∧ a.pos ≤ b.pos)))

instance : DecidableRel occLe := fun a b => by
  unfold occLe; infer_instance

theorem occLe_iff (a b : Occ) : occLe a b ↔
    b.sim.val < a.sim.val ∨ (a.sim.val = b.sim.val ∧
      (a.prompt < b.prompt ∨ (a.prompt = b.prompt ∧ a.pos ≤ b.pos))) := by
  unfold occLe
  rw [Sim.le_iff_val_le, Sim.le_iff_val_le]
  constructor
  · rintro (⟨h1, h2⟩ | ⟨h1, h2, h3⟩)
    · exact Or.inl (lt_of_le_not_le h1 h2)
    · exact Or.inr ⟨le_antisymm h1 h2, h3⟩
  · rintro (h | ⟨h1, h2⟩)
    · exact Or.inl ⟨h.le, not_le.mpr h⟩
    · exact Or.inr ⟨h1.le, h1.ge, h2⟩

instance : IsTotal Occ occLe := ⟨by
  intro a b
  rw [occLe_iff, occLe_iff]
  rcases lt_trichotomy a.sim.val b.sim.val with h | h | h
  · exact Or.inr (Or.inl h)
  · rcases Nat.lt_trichotomy a.prompt b.prompt with hp | hp | hp
    · exact Or.inl (Or.inr ⟨h, Or.inl hp⟩)
    · rcases Nat.le_total a.pos b.pos with hq | hq
      · exact Or.inl (Or.inr ⟨h, Or.inr ⟨hp, hq⟩⟩)
      · exact Or.inr (Or.inr ⟨h.symm, Or.inr ⟨hp.symm, hq⟩⟩)
    · exact Or.inr (Or.inr ⟨h.symm, Or.inl hp⟩)
  · exact Or.inl (Or.inl h)⟩

instance : IsTrans Occ occLe := ⟨by
  intro a b c hab hbc
  rw [occLe_iff] at hab hbc ⊢
  rcases hab with h1 | ⟨h1, h1'⟩ <;> rcases hbc with h2 | ⟨h2, h2'⟩
  · exact Or.inl (h2.trans h1)
  · exact Or.inl (h2 ▸ h1)
  · exact Or.inl (by rw [h1]; exact h2)
  · refine Or.inr ⟨h1.trans h2, ?_⟩
    rcases h1' with hp | ⟨hp, hq⟩ <;> rcases h2' with hp' | ⟨hp', hq'⟩ <;> omega⟩

/-- The sorted per-row group (`entries.sort_by(...)` for the group of `r`). -/
def sortedGroup (sets : List (List FacultyMatchResult)) (r : ℕ) : List Occ :=
  (occurrencesOf sets r).insertionSort occLe

/-- The rank-map lookup `rank_map.get(&(i, j))`: position in the sorted
group of row `r` (1-based) paired with the group size. -/
def rankLookup (sets : List (List FacultyMatchResult)) (i j r : ℕ) : Option (ℕ × ℕ) :=
  match (sortedGroup sets r).findIdx? (fun o => o.prompt == i && o.pos == j) with
  | some k => some (k + 1, (sortedGroup sets r).length)
  | none => none

/-- Writing the two cross-query rank fields of one match from the rank-map
lookup result (the final loop of `assign_student_rankings`). -/
def set_rank (m : FacultyMatchResult) (v : Option (ℕ × ℕ)) : FacultyMatchResult :=
  match v with
  | some rt => { m with student_rank_for_faculty := some rt.1, student_rank_total := some rt.2 }
  | none => { m with student_rank_for_faculty := none, student_rank_total := none }

def assign_student_rankings (sets : List (List FacultyMatchResult)) :
    List (List FacultyMatchResult) :=
  if sets.isEmpty then sets
  else
    sets.enum.map fun pi =>
      pi.2.enum.map fun pj =>
        set_rank pj.2 (rankLookup sets pi.1 pj.1 pj.2.row_index)

theorem mem_enum_iff {l : List α} {p : ℕ × α} : p ∈ l.enum ↔ l[p.1]? = some p.2 :=
  List.mem_enum_iff_getElem?

/-- Membership characterisation of a row's occurrence list. -/
theorem mem_occurrencesOf {sets : List (List FacultyMatchResult)} {r : ℕ} {o : Occ} :
    o ∈ occurrencesOf sets r ↔
      ∃ ms m, sets[o.prompt]? = some ms ∧ ms[o.pos]? = some m ∧
        m.row_index = r ∧ o.sim = m.similarity := by
  unfold occurrencesOf occBlock
  rw [List.mem_flatten]
  constructor
  · rintro ⟨blk, hblk, ho⟩
    obtain ⟨pi, hpi, rfl⟩ := List.mem_map.mp hblk
    obtain ⟨pj, hpj, hpjo⟩ := List.mem_filterMap.mp ho
    by_cases hrow : pj.2.row_index = r
    · rw [if_pos hrow] at hpjo
      obtain rfl := Option.some.inj hpjo
      exact ⟨pi.2, pj.2, mem_enum_iff.mp hpi, mem_enum_iff.mp hpj, hrow, rfl⟩
    · rw [if_neg hrow] at hpjo
      exact absurd hpjo (by simp)
  · rintro ⟨ms, m, hms, hm, hrow, hsim⟩
    refine ⟨ms.enum.filterMap fun pj =>
        if pj.2.row_index = r then some ⟨o.prompt, pj.1, pj.2.similarity⟩ else none,
      List.mem_map.mpr ⟨(o.prompt, ms), mem_enum_iff.mpr hms, rfl⟩, ?_⟩
    apply List.mem_filterMap.mpr
    refine ⟨(o.pos, m), mem_enum_iff.mpr hm, ?_⟩
    rw [if_pos hrow, ← hsim]

/-- Strict lexicographic order on the `(prompt, pos)` keys. -/
def occKeyLt (a b : Occ) : Prop :=
  a.prompt < b.prompt ∨ (a.prompt = b.prompt ∧ a.pos < b.pos)

theorem enum_pairwise_fst (l : List α) :
    l.enum.Pairwise (fun p q => p.1 < q.1) := by
  rw [List.pairwise_iff_getElem]
  intro i j hi hj hij
  rw [List.getElem_enum, List.getElem_enum]
  exact hij

/-- The occurrence list of a row has strictly increasing keys: distinct
prompt/position pairs in scan order. -/
theorem occurrencesOf_pairwise_key (sets : List (List FacultyMatchResult)) (r : ℕ) :
    (occurrencesOf sets r).Pairwise occKeyLt := by
  unfold occurrencesOf
  rw [List.pairwise_flatten]
  constructor
  · intro blk hblk
    obtain ⟨pi, _, rfl⟩ := List.mem_map.mp hblk
    unfold occBlock
    apply List.Pairwise.filterMap _ _ (enum_pairwise_fst pi.2)
    intro a a' hlt b hb b' hb'
    have hbval : b.prompt = pi.1 ∧ b.pos = a.1 := by
      by_cases h : a.2.row_index = r
      · rw [if_pos h] at hb
        obtain rfl := Option.mem_def.mp hb |> Option.some.inj
        exact ⟨rfl, rfl⟩
      · rw [if_neg h] at hb
        exact absurd hb (by simp)
    have hbval' : b'.prompt = pi.1 ∧ b'.pos = a'.1 := by
      by_cases h : a'.2.row_index = r
      · rw [if_pos h] at hb'
        obtain rfl := Option.mem_def.mp hb' |> Option.some.inj
        exact ⟨rfl, rfl⟩
      · rw [if_neg h] at hb'
        exact absurd hb' (by simp)
    exact Or.inr ⟨hbval.1.trans hbval'.1.symm, hbval.2 ▸ hbval'.2 ▸ hlt⟩
  · rw [List.pairwise_map]
    apply (enum_pairwise_fst sets).imp
    intro pi pj hlt x hx y hy
    obtain ⟨px, _, hpx⟩ := List.mem_filterMap.mp hx
    obtain ⟨py, _, hpy⟩ := List.mem_filterMap.mp hy
    have hxp : x.prompt = pi.1 := by
      by_cases h : px.2.row_index = r
      · rw [if_pos h] at hpx
        obtain rfl := Option.some.inj hpx
        rfl
      · rw [if_neg h] at hpx
        exact absurd hpx (by simp)
    have hyp : y.prompt = pj.1 := by
      by_cases h : py.2.row_index = r
      · rw [if_pos h] at hpy
        obtain rfl := Option.some.inj hpy
        rfl
      · rw [if_neg h] at hpy
        exact absurd hpy (by simp)
    exact Or.inl (hxp ▸ hyp ▸ hlt)

theorem sortedGroup_key_ne (sets : List (List FacultyMatchResult)) (r : ℕ) :
    (sortedGroup sets r).Pairwise
      (fun a b => ¬(a.prompt = b.prompt ∧ a.pos = b.pos)) := by
  have hperm : sortedGroup sets r ~ occurrencesOf sets r :=
    List.perm_insertionSort occLe _
  refine (List.Perm.pairwise_iff (fun h hc => h ⟨hc.1.symm, hc.2.symm⟩) hperm).mpr ?_
  apply (occurrencesOf_pairwise_key sets r).imp
  intro a b hlt hc
  rcases hlt with h | ⟨_, h⟩
  · omega
  · omega

/-- If the keys of a list are pairwise distinct then searching for the key
of the `k`-th element finds exactly position `k`. -/
theorem findIdx_key {grp : List Occ}
    (hnd : grp.Pairwise (fun a b => ¬(a.prompt = b.prompt ∧ a.pos = b.pos)))
    (k : ℕ) (hk : k < grp.length) :
    grp.findIdx? (fun o => o.prompt == grp[k].prompt && o.pos == grp[k].pos) = some k := by
  rw [List.findIdx?_eq_some_iff_getElem]
  refine ⟨hk, by simp, ?_⟩
  intro j hj
  have hne := List.pairwise_iff_getElem.mp hnd j k (hj.trans hk) hk hj
  intro hc
  apply hne
  simpa [Bool.and_eq_true, beq_iff_eq] using hc

/-- Shape of the output of `assign_student_rankings` at defined positions. -/
theorem assign_getElem {sets : List (List FacultyMatchResult)} {i j : ℕ}
    {ms : List FacultyMatchResult} {m : FacultyMatchResult}
    (hi : sets[i]? = some ms) (hj : ms[j]? = some m) :
    ∃ ms', (assign_student_rankings sets)[i]? = some ms' ∧ ms'.length = ms.length ∧
      ms'[j]? = some (set_rank m (rankLookup sets i j m.row_index)) := by
  have hne : sets.isEmpty = false := by
    cases sets with
    | nil => simp at hi
    | cons a l => rfl
  unfold assign_student_rankings
  rw [hne]
  simp only [Bool.false_eq_true, if_false]
  refine ⟨ms.enum.map fun pj => set_rank pj.2 (rankLookup sets i pj.1 pj.2.row_index),
    ?_, ?_, ?_⟩
  · rw [List.getElem?_map, List.getElem?_enum, hi, Option.map_some', Option.map_some']
  · simp
  · rw [List.getElem?_map, List.getElem?_enum, hj, Option.map_some', Option.map_some']

/-- **C2.** `assign_student_rankings` groups the occurrences of each
candidate row `r` across all match sets, sorts the group by similarity
descending (ties by prompt order then match position), and writes rank
`k + 1` with total `N` (the group size) into the `k`-th occurrence of the
sorted group; the sorted group is a permutation of all occurrences of `r`,
so the assigned ranks are exactly `{1..N}` in order of non-increasing
similarity.  In particular a candidate with a single occurrence gets
rank 1 and total 1. -/
theorem assign_student_rankings_spec (sets : List (List FacultyMatchResult)) (r : ℕ) :
    sortedGroup sets r ~ occurrencesOf sets r ∧
    (sortedGroup sets r).length = (occurrencesOf sets r).length ∧
    (sortedGroup sets r).Pairwise occLe ∧
    (sortedGroup sets r).Pairwise (fun a b => b.sim.val ≤ a.sim.val) ∧
    (∀ k (hk : k < (sortedGroup sets r).length),
      ∃ ms m, sets[(sortedGroup sets r)[k].prompt]? = some ms ∧
        ms[(sortedGroup sets r)[k].pos]? = some m ∧
        m.row_index = r ∧ (sortedGroup sets r)[k].sim = m.similarity ∧
        ∃ ms' m', (assign_student_rankings sets)[(sortedGroup sets r)[k].prompt]? = some ms' ∧
          ms'[(sortedGroup sets r)[k].pos]? = some m' ∧
          m'.student_rank_for_faculty = some (k + 1) ∧
          m'.student_rank_total = some (occurrencesOf sets r).length) ∧
    (∀ i j (ms : List FacultyMatchResult) (m : FacultyMatchResult),
      sets[i]? = some ms → ms[j]? = some m → m.row_index = r →
      (⟨i, j, m.similarity⟩ : Occ) ∈ occurrencesOf sets r) := by
  have hperm : sortedGroup sets r ~ occurrencesOf sets r :=
    List.perm_insertionSort occLe _
  have hsorted : (sortedGroup sets r).Pairwise occLe :=
    List.sorted_insertionSort occLe _
  refine ⟨hperm, hperm.length_eq, hsorted, ?_, ?_,
    fun i j ms m hi hj hr => mem_occurrencesOf.mpr ⟨ms, m, hi, hj, hr, rfl⟩⟩
  · apply hsorted.imp
    intro a b hab
    rw [occLe_iff] at hab
    rcases hab with h | ⟨h, _⟩
    · exact h.le
    · exact h.ge
  · intro k hk
    have hmem : (sortedGroup sets r)[k] ∈ occurrencesOf sets r :=
      hperm.subset (List.getElem_mem hk)
    obtain ⟨ms, m, hms, hm, hrow, hsim⟩ := mem_occurrencesOf.mp hmem
    refine ⟨ms, m, hms, hm, hrow, hsim, ?_⟩
    obtain ⟨ms', hms', _, hval⟩ := assign_getElem hms hm
    have hfind := findIdx_key (sortedGroup_key_ne sets r) k hk
    have hlookup : rankLookup sets (sortedGroup sets r)[k].prompt
        (sortedGroup sets r)[k].pos m.row_index =
        some (k + 1, (sortedGroup sets r).length) := by
      unfold rankLookup
      rw [hrow, hfind]
    refine ⟨ms', set_rank m (rankLookup sets (sortedGroup sets r)[k].prompt
        (sortedGroup sets r)[k].pos m.row_index), hms', hval, ?_, ?_⟩
    · rw [hlookup]
      simp [set_rank]
    · rw [hlookup]
      simp [set_rank, hperm.length_eq]

/-- **C10.** `assign_student_rankings` only rewrites the two cross-query
rank fields: the number of match lists is unchanged, each list keeps its
length and positional order, and every match keeps its `row_index`,
`similarity`, `identifiers` and `faculty_text`. -/
theorem assign_student_rankings_frame (sets : List (List FacultyMatchResult)) :
    (assign_student_rankings sets).length = sets.length ∧
    (∀ (i : ℕ) (ms : List FacultyMatchResult), sets[i]? = some ms →
      ∃ ms' : List FacultyMatchResult,
        (assign_student_rankings sets)[i]? = some ms' ∧ ms'.length = ms.length) ∧
    (∀ (i j : ℕ) (ms : List FacultyMatchResult) (m : FacultyMatchResult),
      sets[i]? = some ms → ms[j]? = some m →
      ∃ (ms' : List FacultyMatchResult) (m' : FacultyMatchResult),
        (assign_student_rankings sets)[i]? = some ms' ∧ ms'[j]? = some m' ∧
        m'.row_index = m.row_index ∧ m'.similarity = m.similarity ∧
        m'.identifiers = m.identifiers ∧ m'.faculty_text = m.faculty_text) := by
  refine ⟨?_, ?_, ?_⟩
  · unfold assign_student_rankings
    by_cases h : sets.isEmpty
    · rw [if_pos h]
    · rw [if_neg h]
      simp
  · intro i ms hi
    have hne : sets.isEmpty = false := by
      cases sets with
      | nil => simp at hi
      | cons a l => rfl
    unfold assign_student_rankings
    rw [hne]
    simp only [Bool.false_eq_true, if_false]
    refine ⟨ms.enum.map fun pj => set_rank pj.2 (rankLookup sets i pj.1 pj.2.row_index),
      ?_, ?_⟩
    · rw [List.getElem?_map, List.getElem?_enum, hi, Option.map_some', Option.map_some']
    · simp
  · intro i j ms m hi hj
    obtain ⟨ms', hms', _, hval⟩ := assign_getElem hi hj
    refine ⟨ms', set_rank m (rankLookup sets i j m.row_index), hms', hval, ?_, ?_, ?_, ?_⟩ <;>
      cases hlk : rankLookup sets i j m.row_index <;> simp [set_rank]

/-!
## `perform_faculty_embedding_refresh`, pure core (lib.rs lines 2487-2730)

The I/O around the refresh (dataset reading, helper invocation, JSON
persistence, progress events) is external; the index construction between
reading `(headers, rows)` and serialising the resulting index is modelled as
a pure function of the table, the resolved column index lists, the column
labels recorded in the analysis, the helper response, and the timestamp.
`HashMap<usize, Vec<f32>>` (the response demultiplexer) is modelled as an
association list with last-wins insert and keyed removal.
-/

/-- `header_label` (lib.rs lines 4160-4167). -/
def header_label (headers : List String) (index : ℕ) : String :=
  match headers[index]? with
  | some value => if strTrim value = "" then "Column " ++ toString (index + 1) else strTrim value
  | none => "Column " ++ toString (index + 1)

structure RowEmbeddingContext where
  row_index : ℕ
  text : String
  identifiers : List (String × String)

/-- The `text_parts` loop of the refresh: trimmed non-empty values of the
embedding columns of one row, in column-index order. -/
def rowTextParts (embedding_indexes : List ℕ) (row : List String) : List String :=
  embedding_indexes.filterMap fun index =>
    match row[index]? with
    | some value => if strTrim value = "" then none else some (strTrim value)
    | none => none

/-- The `identifiers` loop of the refresh: first trimmed non-empty value per
header label (`entry(label).or_insert(...)`). -/
def rowIdentifiers (headers : List String) (identifier_indexes : List ℕ)
    (row : List String) : List (String × String) :=
  identifier_indexes.foldl (fun acc index =>
    match row[index]? with
    | some value =>
      if strTrim value = "" then acc
      else if acc.any fun kv => kv.1 == header_label headers index then acc
      else acc ++ [(header_label headers index, strTrim value)]
    | none => acc) []

/-- One step of the context-collection loop over enumerated rows: skip and
count rows with no embedding text, otherwise push a context. -/
def ctxStep (headers : List String) (embedding_indexes identifier_indexes : List ℕ)
    (acc : List RowEmbeddingContext × ℕ) (p : ℕ × List String) :
    List RowEmbeddingContext × ℕ :=
  let parts := rowTextParts embedding_indexes p.2
  if parts.isEmpty then (acc.1, acc.2 + 1)
  else
    (acc.1 ++ [{ row_index := p.1
                 text := String.intercalate "\n\n" parts
                 identifiers := rowIdentifiers headers identifier_indexes p.2 }],
     acc.2)

/-- The contexts prepared for the embedding request, with the
`skipped_due_to_text` count. -/
def buildRowContexts (headers : List String) (embedding_indexes identifier_indexes : List ℕ)
    (rows : List (List String)) : List RowEmbeddingContext × ℕ :=
  rows.enum.foldl (ctxStep headers embedding_indexes identifier_indexes) ([], 0)

structure EmbeddingResponseRow where
  id : ℕ
  embedding : List ℚ

structure EmbeddingResponsePayload where
  model : String
  dimension : ℕ
  rows : List EmbeddingResponseRow

/-- `HashMap::insert`: replace the value of an existing key, else append. -/
def mapInsert (m : List (ℕ × List ℚ)) (k : ℕ) (v : List ℚ) : List (ℕ × List ℚ) :=
  if m.any fun kv => kv.1 == k then m.map fun kv => if kv.1 == k then (k, v) else kv
  else m ++ [(k, v)]

/-- The `embedding_map` built from the response rows. -/
def buildEmbeddingMap (rows : List EmbeddingResponseRow) : List (ℕ × List ℚ) :=
  rows.foldl (fun m row => mapInsert m row.id row.embedding) []

def mapGet (m : List (ℕ × List ℚ)) (k : ℕ) : Option (List ℚ) :=
  (m.find? fun kv => kv.1 == k).map fun kv => kv.2

def mapRemove (m : List (ℕ × List ℚ)) (k : ℕ) : List (ℕ × List ℚ) :=
  m.filter fun kv => !(kv.1 == k)

/-- One step of the entry-alignment loop: `embedding_map.remove(&row_index)`
either yields the entry's vector or increments `missing_embeddings`. -/
def entStep (acc : List FacultyEmbeddingEntry × ℕ × List (ℕ × List ℚ))
    (ctx : RowEmbeddingContext) : List FacultyEmbeddingEntry × ℕ × List (ℕ × List ℚ) :=
  match mapGet acc.2.2 ctx.row_index with
  | some embedding =>
      (acc.1 ++ [{ row_index := ctx.row_index
                   identifiers := ctx.identifiers
                   embedding := embedding }],
       acc.2.1, mapRemove acc.2.2 ctx.row_index)
  | none => (acc.1, acc.2.1 + 1, acc.2.2)

/-- Entries (in context order) and the `missing_embeddings` count. -/
def buildEntries (contexts : List RowEmbeddingContext) (respRows : List EmbeddingResponseRow) :
    List FacultyEmbeddingEntry × ℕ :=
  let result := contexts.foldl entStep ([], 0, buildEmbeddingMap respRows)
  (result.1, result.2.1)

/-- `entries.sort_by_key(|entry| entry.row_index)`. -/
def entryLe (a b : FacultyEmbeddingEntry) : Prop := a.row_index ≤ b.row_index

instance : DecidableRel entryLe := fun a b =>
  inferInstanceAs (Decidable (a.row_index ≤ b.row_index))

instance : IsTotal FacultyEmbeddingEntry entryLe :=
  ⟨fun a b => Nat.le_total a.row_index b.row_index⟩

instance : IsTrans FacultyEmbeddingEntry entryLe :=
  ⟨fun _ _ _ h₁ h₂ => Nat.le_trans h₁ h₂⟩

/-- The pure core of `perform_faculty_embedding_refresh`: from the table,
the resolved column indexes, the analysis column labels, the helper
response and the generation timestamp to the persisted index (or the
error message of the corresponding early return). -/
def perform_embedding_refresh_core (headers : List String)
    (embedding_indexes identifier_indexes : List ℕ)
    (embedding_columns identifier_columns : List String)
    (rows : List (List String)) (response : EmbeddingResponsePayload)
    (now : String) : Except String FacultyEmbeddingIndex :=
  if rows.isEmpty then
    .error "The faculty dataset does not include any data rows to embed."
  else if embedding_indexes.isEmpty then
    .error "No embedding columns were identified for the faculty dataset."
  else if (buildRowContexts headers embedding_indexes identifier_indexes rows).1.isEmpty then
    .error "None of the faculty rows include embedding content."
  else if response.dimension == 0 || response.rows.isEmpty then
    .error "The embedding helper returned an empty result."
  else if (buildEntries (buildRowContexts headers embedding_indexes identifier_indexes rows).1
      response.rows).1.isEmpty then
    .error "No embeddings were generated for the faculty dataset."
  else
    .ok { model := response.model
          generated_at := some now
          dimension := response.dimension
          total_rows := some rows.length
          embedded_rows := some
            (((buildEntries (buildRowContexts headers embedding_indexes identifier_indexes
                rows).1 response.rows).1.insertionSort entryLe).length)
          skipped_rows := some (rows.length -
            ((buildEntries (buildRowContexts headers embedding_indexes identifier_indexes
                rows).1 response.rows).1.insertionSort entryLe).length)
          embedding_columns := embedding_columns
          identifier_columns := identifier_columns
          entries := (buildEntries (buildRowContexts headers embedding_indexes identifier_indexes
              rows).1 response.rows).1.insertionSort entryLe }

theorem ctxStep_count (headers : List String) (ei ii : List ℕ) :
    ∀ (l : List (ℕ × List String)) (acc : List RowEmbeddingContext × ℕ),
      ((l.foldl (ctxStep headers ei ii) acc).1.length +
        (l.foldl (ctxStep headers ei ii) acc).2) = acc.1.length + acc.2 + l.length
  | [], acc => by simp
  | p :: l, acc => by
    rw [List.foldl_cons, ctxStep_count headers ei ii l]
    by_cases h : (rowTextParts ei p.2).isEmpty <;> simp [ctxStep, h] <;> omega

/-- Every dataset row becomes either a context or a skipped-for-text count. -/
theorem buildRowContexts_count (headers : List String) (ei ii : List ℕ)
    (rows : List (List String)) :
    (buildRowContexts headers ei ii rows).1.length +
      (buildRowContexts headers ei ii rows).2 = rows.length := by
  unfold buildRowContexts
  rw [ctxStep_count]
  simp

theorem entStep_count :
    ∀ (l : List RowEmbeddingContext) (acc : List FacultyEmbeddingEntry × ℕ × List (ℕ × List ℚ)),
      ((l.foldl entStep acc).1.length + (l.foldl entStep acc).2.1) =
        acc.1.length + acc.2.1 + l.length
  | [], acc => by simp
  | ctx :: l, acc => by
    rw [List.foldl_cons, entStep_count l]
    cases h : mapGet acc.2.2 ctx.row_index <;> simp [entStep, h] <;> omega

/-- Every requested context yields either an entry or a missing count. -/
theorem buildEntries_count (contexts : List RowEmbeddingContext)
    (respRows : List EmbeddingResponseRow) :
    (buildEntries contexts respRows).1.length + (buildEntries contexts respRows).2 =
      contexts.length := by
  unfold buildEntries
  rw [entStep_count]
  simp

theorem mapGet_mem {m : List (ℕ × List ℚ)} {k : ℕ} {v : List ℚ}
    (h : mapGet m k = some v) : ∃ kv ∈ m, kv.2 = v := by
  unfold mapGet at h
  obtain ⟨kv, hkv, hv⟩ := Option.map_eq_some'.mp h
  exact ⟨kv, List.mem_of_find?_eq_some hkv, hv⟩

theorem mapRemove_subset {m : List (ℕ × List ℚ)} {k : ℕ} :
    ∀ kv ∈ mapRemove m k, kv ∈ m := fun _ h => (List.filter_sublist m).subset h

theorem mapInsert_mem {m : List (ℕ × List ℚ)} {k : ℕ} {v : List ℚ} :
    ∀ kv ∈ mapInsert m k v, kv ∈ m ∨ kv = (k, v) := by
  intro kv hkv
  unfold mapInsert at hkv
  split_ifs at hkv with h
  · obtain ⟨kv', hkv', hval⟩ := List.mem_map.mp hkv
    by_cases hk : (kv'.1 == k) = true
    · rw [if_pos hk] at hval
      exact Or.inr hval.symm
    · rw [if_neg hk] at hval
      exact Or.inl (hval ▸ hkv')
  · rcases List.mem_append.mp hkv with h' | h'
    · exact Or.inl h'
    · exact Or.inr (by simpa using h')

/-- Every binding of the embedding map comes from a response row. -/
theorem buildEmbeddingMap_mem (rows : List EmbeddingResponseRow) :
    ∀ kv ∈ buildEmbeddingMap rows, ∃ rrow ∈ rows, rrow.embedding = kv.2 := by
  suffices h : ∀ (rows : List EmbeddingResponseRow) (m0 : List (ℕ × List ℚ)),
      ∀ kv ∈ rows.foldl (fun m row => mapInsert m row.id row.embedding) m0,
        kv ∈ m0 ∨ ∃ rrow ∈ rows, rrow.embedding = kv.2 by
    intro kv hkv
    rcases h rows [] kv hkv with h' | h'
    · exact absurd h' (by simp)
    · exact h'
  intro rows
  induction rows with
  | nil => exact fun m0 kv hkv => Or.inl hkv
  | cons r rows ih =>
    intro m0 kv hkv
    rw [List.foldl_cons] at hkv
    rcases ih _ kv hkv with h' | ⟨rrow, hr, he⟩
    · rcases mapInsert_mem kv h' with h'' | h''
      · exact Or.inl h''
      · exact Or.inr ⟨r, List.mem_cons_self r rows, by rw [h'']⟩
    · exact Or.inr ⟨rrow, List.mem_cons_of_mem r hr, he⟩

/-- Provenance of built entries: each comes from a context of the fold, or
was already in the accumulator; its vector is a value of the running map. -/
theorem entStep_provenance (Q : List ℚ → Prop) :
    ∀ (l : List RowEmbeddingContext)
      (acc : List FacultyEmbeddingEntry × ℕ × List (ℕ × List ℚ)),
      (∀ kv ∈ acc.2.2, Q kv.2) →
      ∀ e ∈ (l.foldl entStep acc).1,
        e ∈ acc.1 ∨ ∃ ctx ∈ l, e.row_index = ctx.row_index ∧
          e.identifiers = ctx.identifiers ∧ Q e.embedding
  | [], acc, _, e, he => Or.inl he
  | ctx :: l, acc, hQ, e, he => by
    rw [List.foldl_cons] at he
    have hstep : ∀ kv ∈ (entStep acc ctx).2.2, Q kv.2 := by
      intro kv hkv
      cases h : mapGet acc.2.2 ctx.row_index <;> rw [entStep, h] at hkv
      · exact hQ kv hkv
      · exact hQ kv (mapRemove_subset kv hkv)
    rcases entStep_provenance Q l (entStep acc ctx) hstep e he with h' | ⟨c, hc, hprop⟩
    · cases h : mapGet acc.2.2 ctx.row_index <;> rw [entStep, h] at h'
      · exact Or.inl h'
      · rcases List.mem_append.mp h' with h'' | h''
        · exact Or.inl h''
        · obtain rfl : e = _ := by simpa using h''
          refine Or.inr ⟨ctx, List.mem_cons_self ctx l, rfl, rfl, ?_⟩
          obtain ⟨kv, hkv, hv⟩ := mapGet_mem h
          exact hv ▸ hQ kv hkv
    · exact Or.inr ⟨c, List.mem_cons_of_mem ctx hc, hprop⟩

/-- Removing one key leaves lookups of any other key unchanged. -/
theorem mapGet_remove_ne {k k' : ℕ} (hne : k ≠ k') :
    ∀ (m : List (ℕ × List ℚ)), mapGet (mapRemove m k) k' = mapGet m k'
  | [] => rfl
  | kv :: m => by
    unfold mapRemove mapGet
    by_cases hk : kv.1 = k
    · have h1 : (!(kv.1 == k)) = false := by simp [hk]
      have h2 : (kv.1 == k') = false := by simp [hk]; omega
      simp only [List.filter_cons, h1, Bool.false_eq_true, if_false, List.find?_cons, h2]
      exact mapGet_remove_ne hne m
    · have h1 : (!(kv.1 == k)) = true := by simp [hk]
      simp only [List.filter_cons, h1, if_true, List.find?_cons]
      by_cases hk' : (kv.1 == k') = true
      · rw [hk']
      · rw [Bool.not_eq_true] at hk'
        rw [hk']
        exact mapGet_remove_ne hne m

/-- The entry fold only appends to the accumulated entry list. -/
theorem entStep_prefix : ∀ (l : List RowEmbeddingContext)
    (acc : List FacultyEmbeddingEntry × ℕ × List (ℕ × List ℚ)),
    ∃ t, (l.foldl entStep acc).1 = acc.1 ++ t
  | [], acc => ⟨[], by simp⟩
  | ctx :: l, acc => by
    rw [List.foldl_cons]
    obtain ⟨t, ht⟩ := entStep_prefix l (entStep acc ctx)
    cases h : mapGet acc.2.2 ctx.row_index with
    | none =>
      have hstep : (entStep acc ctx).1 = acc.1 := by rw [entStep, h]
      rw [hstep] at ht
      exact ⟨t, ht⟩
    | some emb =>
      have hstep : (entStep acc ctx).1 = acc.1 ++
          [{ row_index := ctx.row_index, identifiers := ctx.identifiers,
             embedding := emb }] := by rw [entStep, h]
      rw [hstep, List.append_assoc] at ht
      exact ⟨_, ht⟩

/-- Completeness of the entry fold: a context whose row index is found in
the running map (and is not repeated later) yields an entry. -/
theorem entStep_complete : ∀ (l : List RowEmbeddingContext)
    (acc : List FacultyEmbeddingEntry × ℕ × List (ℕ × List ℚ))
    (ctx : RowEmbeddingContext), ctx ∈ l →
    (mapGet acc.2.2 ctx.row_index).isSome = true →
    l.Pairwise (fun c c' => c.row_index ≠ c'.row_index) →
    ∃ e ∈ (l.foldl entStep acc).1,
      e.row_index = ctx.row_index ∧ e.identifiers = ctx.identifiers
  | c :: l, acc, ctx, hctx, hid, hdist => by
    rw [List.foldl_cons]
    rcases List.mem_cons.mp hctx with rfl | hctx'
    · obtain ⟨emb, hemb⟩ := Option.isSome_iff_exists.mp hid
      obtain ⟨t, ht⟩ := entStep_prefix l (entStep acc ctx)
      have hstep : (entStep acc ctx).1 = acc.1 ++
          [{ row_index := ctx.row_index, identifiers := ctx.identifiers,
             embedding := emb }] := by rw [entStep, hemb]
      rw [hstep] at ht
      refine ⟨⟨ctx.row_index, ctx.identifiers, emb⟩, ?_, rfl, rfl⟩
      rw [ht]
      simp
    · cases hlook : mapGet acc.2.2 c.row_index with
      | none =>
        refine entStep_complete l (entStep acc c) ctx hctx' ?_ hdist.tail
        have hstep : (entStep acc c).2.2 = acc.2.2 := by rw [entStep, hlook]
        rw [hstep]
        exact hid
      | some emb =>
        refine entStep_complete l (entStep acc c) ctx hctx' ?_ hdist.tail
        have hstep : (entStep acc c).2.2 = mapRemove acc.2.2 c.row_index := by
          rw [entStep, hlook]
        have hne : c.row_index ≠ ctx.row_index :=
          List.rel_of_pairwise_cons hdist hctx'
        rw [hstep, mapGet_remove_ne hne]
        exact hid

/-- The contexts carry strictly increasing row indices (their enumerated
source-row positions). -/
theorem ctx_fold_pairwise (headers : List String) (ei ii : List ℕ) :
    ∀ (l : List (ℕ × List String)) (acc : List RowEmbeddingContext × ℕ),
      (∀ c ∈ acc.1, ∀ p ∈ l, c.row_index < p.1) →
      acc.1.Pairwise (fun c c' => c.row_index < c'.row_index) →
      l.Pairwise (fun p q => p.1 < q.1) →
      (l.foldl (ctxStep headers ei ii) acc).1.Pairwise
        (fun c c' => c.row_index < c'.row_index)
  | [], acc, _, hacc, _ => hacc
  | p :: l, acc, hbound, hacc, hl => by
    rw [List.foldl_cons]
    by_cases hparts : (rowTextParts ei p.2).isEmpty
    · have hstep : ctxStep headers ei ii acc p = (acc.1, acc.2 + 1) := by
        rw [ctxStep]
        simp [hparts]
      rw [hstep]
      exact ctx_fold_pairwise headers ei ii l (acc.1, acc.2 + 1)
        (fun c hc q hq => hbound c hc q (List.mem_cons_of_mem p hq)) hacc hl.tail
    · have hstep : ctxStep headers ei ii acc p =
          (acc.1 ++ [{ row_index := p.1
                       text := String.intercalate "\n\n" (rowTextParts ei p.2)
                       identifiers := rowIdentifiers headers ii p.2 }], acc.2) := by
        rw [ctxStep]
        simp [hparts]
      rw [hstep]
      refine ctx_fold_pairwise headers ei ii l _ ?_ ?_ hl.tail
      · intro c hc q hq
        rcases List.mem_append.mp hc with hc' | hc'
        · exact hbound c hc' q (List.mem_cons_of_mem p hq)
        · obtain rfl : c = _ := by simpa using hc'
          exact List.rel_of_pairwise_cons hl hq
      · rw [List.pairwise_append]
        refine ⟨hacc, by simp, ?_⟩
        intro c hc c' hc'
        obtain rfl : c' = _ := by simpa using hc'
        exact hbound c hc p (List.mem_cons_self p l)

theorem buildRowContexts_pairwise (headers : List String) (ei ii : List ℕ)
    (rows : List (List String)) :
    (buildRowContexts headers ei ii rows).1.Pairwise
      (fun c c' => c.row_index < c'.row_index) := by
  unfold buildRowContexts
  exact ctx_fold_pairwise headers ei ii rows.enum ([], 0) (by simp) (by simp)
    (enum_pairwise_fst rows)

/-- Unpacking the success branch of the refresh core. -/
theorem perform_embedding_refresh_core_ok {headers : List String}
    {ei ii : List ℕ} {ec ic : List String} {rows : List (List String)}
    {resp : EmbeddingResponsePayload} {now : String} {idx : FacultyEmbeddingIndex}
    (h : perform_embedding_refresh_core headers ei ii ec ic rows resp now = .ok idx) :
    idx = { model := resp.model
            generated_at := some now
            dimension := resp.dimension
            total_rows := some rows.length
            embedded_rows := some
              (((buildEntries (buildRowContexts headers ei ii rows).1
                  resp.rows).1.insertionSort entryLe).length)
            skipped_rows := some (rows.length -
              ((buildEntries (buildRowContexts headers ei ii rows).1
                  resp.rows).1.insertionSort entryLe).length)
            embedding_columns := ec
            identifier_columns := ic
            entries := (buildEntries (buildRowContexts headers ei ii rows).1
                resp.rows).1.insertionSort entryLe } := by
  unfold perform_embedding_refresh_core at h
  split_ifs at h
  exact (Except.ok.inj h).symm

/-- **C6.** When the refresh succeeds, the index holds one entry per
requested row whose ID came back (with that row's identifiers and with a
vector taken from the response), rows whose ID did not come back are
dropped and counted by `missing`, the entries are sorted ascending by row
index, and the counts satisfy `total_rows` = dataset rows,
`embedded_rows` = number of entries, `skipped_rows` = total − embedded;
rows without embedding text never reach the request (contexts + text-skips
= dataset rows). -/
theorem perform_embedding_refresh_spec (headers : List String)
    (ei ii : List ℕ) (ec ic : List String) (rows : List (List String))
    (resp : EmbeddingResponsePayload) (now : String) (idx : FacultyEmbeddingIndex)
    (h : perform_embedding_refresh_core headers ei ii ec ic rows resp now = .ok idx) :
    idx.total_rows = some rows.length ∧
    idx.embedded_rows = some idx.entries.length ∧
    idx.skipped_rows = some (rows.length - idx.entries.length) ∧
    idx.entries.Pairwise entryLe ∧
    idx.entries.length + (buildEntries (buildRowContexts headers ei ii rows).1 resp.rows).2 =
      (buildRowContexts headers ei ii rows).1.length ∧
    (buildRowContexts headers ei ii rows).1.length + (buildRowContexts headers ei ii rows).2 =
      rows.length ∧
    (∀ e ∈ idx.entries, ∃ ctx ∈ (buildRowContexts headers ei ii rows).1,
      e.row_index = ctx.row_index ∧ e.identifiers = ctx.identifiers ∧
      ∃ rrow ∈ resp.rows, rrow.embedding = e.embedding) ∧
    (∀ ctx ∈ (buildRowContexts headers ei ii rows).1,
      (mapGet (buildEmbeddingMap resp.rows) ctx.row_index).isSome = true →
      ∃ e ∈ idx.entries, e.row_index = ctx.row_index ∧ e.identifiers = ctx.identifiers) ∧
    idx.model = resp.model ∧ idx.dimension = resp.dimension := by
  have hidx := perform_embedding_refresh_core_ok h
  subst hidx
  have hperm := List.perm_insertionSort entryLe
    (buildEntries (buildRowContexts headers ei ii rows).1 resp.rows).1
  refine ⟨rfl, rfl, rfl, ?_, ?_, buildRowContexts_count headers ei ii rows, ?_, ?_, rfl, rfl⟩
  · exact List.sorted_insertionSort entryLe _
  · have hcount := buildEntries_count (buildRowContexts headers ei ii rows).1 resp.rows
    rw [← hperm.length_eq] at hcount
    exact hcount
  · intro e he
    have he' : e ∈ (buildEntries (buildRowContexts headers ei ii rows).1 resp.rows).1 :=
      hperm.subset he
    unfold buildEntries at he'
    have hprov := entStep_provenance (fun emb => ∃ rrow ∈ resp.rows, rrow.embedding = emb)
      (buildRowContexts headers ei ii rows).1 ([], 0, buildEmbeddingMap resp.rows)
      (fun kv hkv => buildEmbeddingMap_mem resp.rows kv hkv) e he'
    rcases hprov with h' | ⟨ctx, hc, h1, h2, h3⟩
    · exact absurd h' (by simp)
    · exact ⟨ctx, hc, h1, h2, h3⟩
  · intro ctx hctx hid
    have hdist : (buildRowContexts headers ei ii rows).1.Pairwise
        (fun c c' => c.row_index ≠ c'.row_index) :=
      (buildRowContexts_pairwise headers ei ii rows).imp fun h => Nat.ne_of_lt h
    obtain ⟨e, he, h1, h2⟩ := entStep_complete (buildRowContexts headers ei ii rows).1
      ([], 0, buildEmbeddingMap resp.rows) ctx hctx hid hdist
    exact ⟨e, hperm.mem_iff.mpr he, h1, h2⟩

/-- Scenario input: three faculty rows with embeddable-text lengths 50, 5
and 0 characters. -/
def scenarioRows : List (List String) :=
  [["aaaaaaaaaaaaaaaaaaaaaaaaaaaaaaaaaaaaaaaaaaaaaaaaaa"], ["abcde"], [""]]

/-- Worker response covering the two requested rows. -/
def scenarioResp : EmbeddingResponsePayload :=
  { model := "model"
    dimension := 4
    rows := [{ id := 0, embedding := [1, 0, 0, 0] }, { id := 1, embedding := [0, 1, 0, 0] }] }

/-- The index the refresh core produces on the scenario input. -/
def scenarioIdx : FacultyEmbeddingIndex :=
  { model := "model"
    generated_at := some "now"
    dimension := 4
    total_rows := some 3
    embedded_rows := some 2
    skipped_rows := some 1
    embedding_columns := ["Interests"]
    identifier_columns := []
    entries := [{ row_index := 0, identifiers := [], embedding := [1, 0, 0, 0] },
                { row_index := 1, identifiers := [], embedding := [0, 1, 0, 0] }] }

/-- Witness for C6: three rows with text lengths 50/5/0 give an embedding
request for 2 rows and an index with `embeddedRows = 2`, `skippedRows = 1`. -/
theorem perform_embedding_refresh_spec_witness :
    (buildRowContexts ["Interests"] [0] [] scenarioRows).1.length = 2 ∧
    perform_embedding_refresh_core ["Interests"] [0] [] ["Interests"] [] scenarioRows
        scenarioResp "now" = Except.ok scenarioIdx ∧
    scenarioIdx.total_rows = some 3 ∧ scenarioIdx.embedded_rows = some 2 ∧
      scenarioIdx.skipped_rows = some 1 := by
  have hEq : perform_embedding_refresh_core ["Interests"] [0] [] ["Interests"] []
      scenarioRows scenarioResp "now" = Except.ok scenarioIdx := rfl
  have hspec := perform_embedding_refresh_spec ["Interests"] [0] [] ["Interests"] []
    scenarioRows scenarioResp "now" scenarioIdx hEq
  exact ⟨rfl, hEq, hspec.1, hspec.2.1, hspec.2.2.1⟩

/-- A worker response whose reported dimension (2) disagrees with the
returned vector (length 3): the refresh stores it unchecked. -/
def mismatchedResp : EmbeddingResponsePayload :=
  { model := "m", dimension := 2, rows := [{ id := 0, embedding := [1, 2, 3] }] }

/-- The index the refresh core produces from `mismatchedResp`. -/
def mismatchedIdx : FacultyEmbeddingIndex :=
  { model := "m"
    generated_at := some "t"
    dimension := 2
    total_rows := some 1
    embedded_rows := some 1
    skipped_rows := some 0
    embedding_columns := ["A"]
    identifier_columns := []
    entries := [{ row_index := 0, identifiers := [], embedding := [1, 2, 3] }] }

/-- **C5, counterexample.** The refresh accepts a response row whose vector
length differs from the reported dimension and stores it as-is: the
resulting index violates the entry-length-equals-dimension invariant. -/
theorem embedding_index_invariant_counterexample :
    perform_embedding_refresh_core ["A"] [0] [] ["A"] [] [["text"]] mismatchedResp "t" =
      Except.ok mismatchedIdx ∧
    ∃ e ∈ mismatchedIdx.entries, e.embedding.length ≠ mismatchedIdx.dimension :=
  ⟨rfl, ⟨{ row_index := 0, identifiers := [], embedding := [1, 2, 3] },
    List.Mem.head _, by decide⟩⟩

/-- **C5 (amended).** The refresh stores the worker's vectors verbatim and
records the response's reported dimension; the invariant that every stored
entry's vector length equals the index's `dimension` holds exactly when
every response row's vector has the reported dimension.  Deserialization is
plain field decoding and performs no such validation either. -/
theorem embedding_index_invariant_amended (headers : List String)
    (ei ii : List ℕ) (ec ic : List String) (rows : List (List String))
    (resp : EmbeddingResponsePayload) (now : String) (idx : FacultyEmbeddingIndex)
    (h : perform_embedding_refresh_core headers ei ii ec ic rows resp now = .ok idx)
    (hresp : ∀ rrow ∈ resp.rows, rrow.embedding.length = resp.dimension) :
    ∀ e ∈ idx.entries, e.embedding.length = idx.dimension := by
  intro e he
  have hspec := perform_embedding_refresh_spec headers ei ii ec ic rows resp now idx h
  obtain ⟨ctx, _, _, _, rrow, hrr, hemb⟩ := hspec.2.2.2.2.2.2.1 e he
  have hdim : idx.dimension = resp.dimension := hspec.2.2.2.2.2.2.2.2.2
  rw [← hemb, hresp rrow hrr, hdim]

/-- Witness for the amended C5 at the scenario input, whose response is
dimension-consistent. -/
theorem embedding_index_invariant_amended_witness :
    ∃ e ∈ scenarioIdx.entries, e.embedding.length = scenarioIdx.dimension :=
  ⟨{ row_index := 0, identifiers := [], embedding := [1, 0, 0, 0] },
    List.Mem.head _,
    embedding_index_invariant_amended ["Interests"] [0] [] ["Interests"] [] scenarioRows
      scenarioResp "now" scenarioIdx rfl (by decide)
      { row_index := 0, identifiers := [], embedding := [1, 0, 0, 0] }
      (List.Mem.head _)⟩

/-!
## Worker stdout/stderr decoding (lib.rs lines 2850-2952, 3076-3102)

The JSON values on the worker's streams are modelled by a small JSON AST;
the two serde decoders (`EmbeddingResponsePayload`, then the tagged
`EmbeddingHelperEnvelope`) are modelled as shape decoders over that AST
(serde ignores unknown fields; missing or ill-typed required fields fail).
A line of text that is not JSON at all also lands in the final
parse-failure branch; the model does not distinguish the two.
-/

inductive Json where
  | null
  | bool (b : Bool)
  | num (q : ℚ)
  | str (s : String)
  | arr (items : List Json)
  | obj (fields : List (String × Json))

def getField (j : Json) (name : String) : Option Json :=
  match j with
  | .obj fields => (fields.find? fun kv => kv.1 == name).map fun kv => kv.2
  | _ => none

def asString : Json → Option String
  | .str s => some s
  | _ => none

def asNat : Json → Option ℕ
  | .num q => if q.den = 1 ∧ 0 ≤ q.num then some q.num.toNat else none
  | _ => none

def asNum : Json → Option ℚ
  | .num q => some q
  | _ => none

def parseEmbeddingResponseRow (j : Json) : Option EmbeddingResponseRow := do
  let idj ← getField j "id"
  let id ← asNat idj
  let embj ← getField j "embedding"
  match embj with
  | .arr items =>
    let emb ← items.mapM asNum
    pure { id := id, embedding := emb }
  | _ => none

def parseEmbeddingResponsePayload (j : Json) : Option EmbeddingResponsePayload := do
  let modelj ← getField j "model"
  let model ← asString modelj
  let dimj ← getField j "dimension"
  let dimension ← asNat dimj
  let rowsj ← getField j "rows"
  match rowsj with
  | .arr items =>
    let rows ← items.mapM parseEmbeddingResponseRow
    pure { model := model, dimension := dimension, rows := rows }
  | _ => none

/-- `#[serde(tag = "type", rename_all = "lowercase")] enum
EmbeddingHelperEnvelope { Result { payload }, Error { message } }`. -/
inductive EmbeddingHelperEnvelope where
  | result (payload : EmbeddingResponsePayload)
  | error (message : String)

def parseEmbeddingHelperEnvelope (j : Json) : Option EmbeddingHelperEnvelope := do
  let tagj ← getField j "type"
  let tag ← asString tagj
  if tag = "result" then do
    let pj ← getField j "payload"
    let payload ← parseEmbeddingResponsePayload pj
    pure (.result payload)
  else if tag = "error" then do
    let mj ← getField j "message"
    let message ← asString mj
    pure (.error message)
  else none

inductive EmbeddingHelperMessage where
  | Response (payload : EmbeddingResponsePayload)
  | Error (message : String)
  | Terminated (message : Option String)

/-- The text of the stdout reader's last-resort branch (its `{err}`/`{raw}`
details abstracted). -/
def corruptionMessage : String := "Unable to parse embedding helper output"

/-- The stdout reader's per-line dispatch: try the bare success payload
first, then the enveloped form, and only when both fail report a parse
error. -/
def decode_stdout_line (j : Json) : EmbeddingHelperMessage :=
  match parseEmbeddingResponsePayload j with
  | some response => .Response response
  | none =>
    match parseEmbeddingHelperEnvelope j with
    | some (.result payload) => .Response payload
    | some (.error message) => .Error message
    | none => .Error corruptionMessage

structure EmbeddingProgressUpdate where
  phase : String
  message : Option String
  processed_rows : ℕ
  total_rows : ℕ
  elapsed_seconds : Option ℚ
  estimated_remaining_seconds : Option ℚ

/-- The stderr reader's per-line step.  `progress` is the outcome of
`serde_json::from_str::<EmbeddingProgressUpdate>` on the text after the
`PROGRESS ` marker (only consulted for marked lines); `progress_total` is
the shared expected-row count used to backfill a zero `total_rows`.
Returns the new diagnostic buffer and the progress event emitted, if any;
no stderr line ever produces a channel (fatal) message. -/
def stderr_line_step (line : String) (progress : Option EmbeddingProgressUpdate)
    (progress_total : Option ℕ) (buffer : String) :
    String × Option EmbeddingProgressUpdate :=
  if strStartsWith line "PROGRESS " then
    match progress with
    | some update =>
      (buffer,
        some (if update.total_rows = 0 then
            match progress_total with
            | some rows => { update with total_rows := rows }
            | none => update
          else update))
    | none => (buffer ++ line, none)
  else (buffer ++ line, none)

/-- `augment_error`: append the trimmed diagnostic buffer, then the exit
status when available. -/
def augment_error (base : String) (buffer : String) (exit_status : Option String) : String :=
  let withStderr :=
    if strTrim buffer = "" then base
    else base ++ "\n\nEmbedding helper stderr:\n" ++ strTrim buffer
  match exit_status with
  | some status => withStderr ++ "\n\nEmbedding helper exit status: " ++ status
  | none => withStderr

/-- **C7.** The stdout decoder tries the bare success payload first, then
the enveloped result/error form, and reports a parse (corruption) error
only when both fail; a stderr line without the `PROGRESS ` marker is never
fatal by itself — it is appended to the diagnostic buffer, whose trimmed
text `augment_error` attaches to the next reported error. -/
theorem helper_stream_decoding_spec (j : Json) (line : String)
    (progress : Option EmbeddingProgressUpdate) (total : Option ℕ)
    (buffer base : String) :
    (∀ p, parseEmbeddingResponsePayload j = some p → decode_stdout_line j = .Response p) ∧
    (parseEmbeddingResponsePayload j = none →
      ∀ p, parseEmbeddingHelperEnvelope j = some (.result p) →
        decode_stdout_line j = .Response p) ∧
    (parseEmbeddingResponsePayload j = none →
      ∀ m, parseEmbeddingHelperEnvelope j = some (.error m) →
        decode_stdout_line j = .Error m) ∧
    (parseEmbeddingResponsePayload j = none → parseEmbeddingHelperEnvelope j = none →
      decode_stdout_line j = .Error corruptionMessage) ∧
    (strStartsWith line "PROGRESS " = false →
      stderr_line_step line progress total buffer = (buffer ++ line, none)) ∧
    (strTrim buffer ≠ "" →
      augment_error base buffer none =
        base ++ "\n\nEmbedding helper stderr:\n" ++ strTrim buffer) := by
  refine ⟨?_, ?_, ?_, ?_, ?_, ?_⟩
  · intro p hp
    unfold decode_stdout_line
    rw [hp]
  · intro hnone p henv
    unfold decode_stdout_line
    rw [hnone, henv]
  · intro hnone m henv
    unfold decode_stdout_line
    rw [hnone, henv]
  · intro hnone henv
    unfold decode_stdout_line
    rw [hnone, henv]
  · intro hmark
    unfold stderr_line_step
    rw [hmark]
    simp
  · intro hbuf
    unfold augment_error
    rw [if_neg hbuf]

/-!
## `run_embedding_helper` (lib.rs lines 3139-3180)

The process-level effects are abstracted by an oracle `WorkerWorld`:
`spawnResult` is what `EmbeddingHelperProcess::spawn` would return,
`isRunning` what `is_running` reports for a session, and `requestResult`
the outcome of `send_embedding_request` on a session.  The function value
returns the new content of the shared session slot (`guard`), the list of
sessions shut down during the call, and the call's result.
-/

structure WorkerWorld where
  spawnResult : Except String ℕ
  isRunning : ℕ → Bool
  requestResult : ℕ → Except String EmbeddingResponsePayload

def run_embedding_helper (w : WorkerWorld) (slot : Option ℕ) :
    Option ℕ × List ℕ × Except String EmbeddingResponsePayload :=
  let cleaned : Option ℕ × List ℕ :=
    match slot with
    | some s => if w.isRunning s then (some s, []) else (none, [s])
    | none => (none, [])
  match cleaned.1 with
  | some s =>
    match w.requestResult s with
    | .ok resp => (some s, cleaned.2, .ok resp)
    | .error e => (none, cleaned.2 ++ [s], .error e)
  | none =>
    match w.spawnResult with
    | .error e => (none, cleaned.2, .error e)
    | .ok s =>
      match w.requestResult s with
      | .ok resp => (some s, cleaned.2, .ok resp)
      | .error e => (none, cleaned.2 ++ [s], .error e)

/-- Case lemmas for `run_embedding_helper`: the six reachable
configurations of slot state, spawn outcome and request outcome. -/
theorem run_none_spawn_err {w : WorkerWorld} {e : String}
    (h : w.spawnResult = .error e) :
    run_embedding_helper w none = (none, [], .error e) := by
  simp [run_embedding_helper, h]

theorem run_none_req_ok {w : WorkerWorld} {s : ℕ} {r : EmbeddingResponsePayload}
    (h1 : w.spawnResult = .ok s) (h2 : w.requestResult s = .ok r) :
    run_embedding_helper w none = (some s, [], .ok r) := by
  simp [run_embedding_helper, h1, h2]

theorem run_none_req_err {w : WorkerWorld} {s : ℕ} {e : String}
    (h1 : w.spawnResult = .ok s) (h2 : w.requestResult s = .error e) :
    run_embedding_helper w none = (none, [s], .error e) := by
  simp [run_embedding_helper, h1, h2]

theorem run_dead_session {w : WorkerWorld} {s : ℕ} (h : w.isRunning s = false) :
    run_embedding_helper w (some s) =
      (match w.spawnResult with
       | .error e => (none, [s], .error e)
       | .ok s' =>
         match w.requestResult s' with
         | .ok r => (some s', [s], .ok r)
         | .error e => (none, [s, s'], .error e)) := by
  cases hsp : w.spawnResult with
  | error e => simp [run_embedding_helper, h, hsp]
  | ok s' => cases hreq : w.requestResult s' <;> simp [run_embedding_helper, h, hsp, hreq]

theorem run_live_req_ok {w : WorkerWorld} {s : ℕ} {r : EmbeddingResponsePayload}
    (h1 : w.isRunning s = true) (h2 : w.requestResult s = .ok r) :
    run_embedding_helper w (some s) = (some s, [], .ok r) := by
  simp [run_embedding_helper, h1, h2]

theorem run_live_req_err {w : WorkerWorld} {s : ℕ} {e : String}
    (h1 : w.isRunning s = true) (h2 : w.requestResult s = .error e) :
    run_embedding_helper w (some s) = (none, [s], .error e) := by
  simp [run_embedding_helper, h1, h2]

/-- **C8.** Whenever the request fails (spawn failure, helper error,
termination or lost communication all surface as the request's error), the
session that served the request — if one was used — is shut down and the
shared session slot is cleared before the error is returned, so the next
call finds no live session and respawns from a clean process; on success
the serving session is kept in the slot for reuse. -/
theorem run_embedding_helper_spec (w : WorkerWorld) (slot : Option ℕ) :
    (∀ e, (run_embedding_helper w slot).2.2 = .error e →
      (run_embedding_helper w slot).1 = none) ∧
    (∀ s e, slot = some s → w.isRunning s = true → w.requestResult s = .error e →
      run_embedding_helper w slot = (none, [s], .error e)) ∧
    (∀ s e, slot = none → w.spawnResult = .ok s → w.requestResult s = .error e →
      run_embedding_helper w slot = (none, [s], .error e)) ∧
    (∀ s, slot = some s → w.isRunning s = false →
      s ∈ (run_embedding_helper w slot).2.1) ∧
    (∀ r, (run_embedding_helper w slot).2.2 = .ok r →
      ∃ s, (run_embedding_helper w slot).1 = some s ∧ w.requestResult s = .ok r) ∧
    (∀ (w' : WorkerWorld) s r, w'.spawnResult = .ok s → w'.requestResult s = .ok r →
      run_embedding_helper w' none = (some s, [], .ok r)) := by
  refine ⟨?_, ?_, ?_, ?_, ?_, fun w' s r h1 h2 => run_none_req_ok h1 h2⟩
  · intro e h
    cases slot with
    | none =>
      cases hsp : w.spawnResult with
      | error e' => rw [run_none_spawn_err hsp]
      | ok s =>
        cases hreq : w.requestResult s with
        | ok r => rw [run_none_req_ok hsp hreq] at h ⊢; exact absurd h (by simp)
        | error e' => rw [run_none_req_err hsp hreq]
    | some s =>
      cases hrun : w.isRunning s with
      | false =>
        rw [run_dead_session hrun] at h ⊢
        cases hsp : w.spawnResult with
        | error e' => simp [hsp]
        | ok s' =>
          cases hreq : w.requestResult s' with
          | ok r => simp [hsp, hreq] at h
          | error e' => simp [hsp, hreq]
      | true =>
        cases hreq : w.requestResult s with
        | ok r => rw [run_live_req_ok hrun hreq] at h ⊢; exact absurd h (by simp)
        | error e' => rw [run_live_req_err hrun hreq]
  · intro s e hslot hrun hreq
    subst hslot
    exact run_live_req_err hrun hreq
  · intro s e hslot hsp hreq
    subst hslot
    exact run_none_req_err hsp hreq
  · intro s hslot hrun
    subst hslot
    rw [run_dead_session hrun]
    cases hsp : w.spawnResult with
    | error e => simp
    | ok s' => cases hreq : w.requestResult s' <;> simp [hreq]
  · intro r h
    cases slot with
    | none =>
      cases hsp : w.spawnResult with
      | error e => rw [run_none_spawn_err hsp] at h; exact absurd h (by simp)
      | ok s =>
        cases hreq : w.requestResult s with
        | ok r' =>
          rw [run_none_req_ok hsp hreq] at h ⊢
          obtain rfl : r' = r := by simpa using h
          exact ⟨s, rfl, hreq⟩
        | error e => rw [run_none_req_err hsp hreq] at h; exact absurd h (by simp)
    | some s =>
      cases hrun : w.isRunning s with
      | false =>
        rw [run_dead_session hrun] at h ⊢
        cases hsp : w.spawnResult with
        | error e => simp [hsp] at h
        | ok s' =>
          cases hreq : w.requestResult s' with
          | ok r' =>
            simp only [hsp, hreq] at h ⊢
            obtain rfl : r' = r := by simpa using h
            exact ⟨s', rfl, hreq⟩
          | error e => simp [hsp, hreq] at h
      | true =>
        cases hreq : w.requestResult s with
        | ok r' =>
          rw [run_live_req_ok hrun hreq] at h ⊢
          obtain rfl : r' = r := by simpa using h
          exact ⟨s, rfl, hreq⟩
        | error e => rw [run_live_req_err hrun hreq] at h; exact absurd h (by simp)

/-!
## `suggest_spreadsheet_columns` (lib.rs lines 4498-4702)

Keyword matching on lowercased headers first; statistical fallbacks
otherwise.  Rust's `sort_unstable` + `Vec::dedup` on `usize` indices is
`sort_and_dedup`; `Vec::dedup` removes consecutive duplicates only, which
on the sorted list yields a strictly increasing list.
-/

def PROMPT_KEYWORDS : List String :=
  ["prompt", "interest", "research", "description", "summary",
   "essay", "statement", "focus", "topic", "goal"]

def IDENTIFIER_KEYWORDS : List String :=
  ["id", "identifier", "name", "first", "last", "student", "email",
   "netid", "number", "uid"]

/-- Rust `str::contains(keyword)`: substring match. -/
def containsSubstring (s k : String) : Bool := decide (k.data <:+: s.data)

structure ColumnStats where
  index : ℕ
  non_empty : ℕ
  average_length : ℚ
  max_length : ℕ
  numeric_ratio : ℚ

/-- `is_numeric_like` (lib.rs lines 4694-4702): non-empty after trimming
and containing no ASCII-alphabetic character. -/
def is_numeric_like (value : String) : Bool :=
  if strTrim value = "" then false
  else !((strTrim value).data.any fun c => c.isAlpha)

/-- `compute_column_stats` (lib.rs lines 4642-4692): per column, the count,
mean character length, maximum length and numeric-looking ratio of the
trimmed non-empty sample values. -/
def compute_column_stats (headers : List String) (rows : List (List String)) :
    List ColumnStats :=
  (List.range headers.length).map fun index =>
    let values := rows.filterMap fun row =>
      match row[index]? with
      | some value => if strTrim value = "" then none else some (strTrim value)
      | none => none
    let non_empty := values.length
    let total_length := (values.map fun v => v.data.length).sum
    let max_length := (values.map fun v => v.data.length).foldl max 0
    let numeric_like := (values.filter fun v => is_numeric_like v).length
    { index := index
      non_empty := non_empty
      average_length := if 0 < non_empty then (total_length : ℚ) / (non_empty : ℚ) else 0
      max_length := max_length
      numeric_ratio := if 0 < non_empty then (numeric_like : ℚ) / (non_empty : ℚ) else 0 }

/-- `Vec::dedup`: drop consecutive duplicates. -/
def dedupConsec : List ℕ → List ℕ
  | [] => []
  | [a] => [a]
  | a :: b :: rest =>
    if a = b then dedupConsec (b :: rest) else a :: dedupConsec (b :: rest)

/-- `sort_and_dedup` (lib.rs lines 4629-4632). -/
def sort_and_dedup (values : List ℕ) : List ℕ :=
  dedupConsec (values.insertionSort (· ≤ ·))

/-- The keyword pass of `suggest_spreadsheet_columns`: indices of non-empty
headers whose lowercase form contains a keyword. -/
def keyword_columns (keywords : List String) (headers : List String) : List ℕ :=
  headers.enum.filterMap fun p =>
    if strToLower p.2 = "" then none
    else if keywords.any fun keyword => containsSubstring (strToLower p.2) keyword then
      some p.1
    else none

/-- The embedding-column fallback sort: average length descending, ties by
maximum length descending (`candidates.sort_by`). -/
def promptStatLe (a b : ColumnStats) : Prop :=
  b.average_length < a.average_length ∨
    (b.average_length = a.average_length ∧ b.max_length ≤ a.max_length)

instance : DecidableRel promptStatLe := fun a b => by
  unfold promptStatLe; infer_instance

/-- The embedding-column fallback (lib.rs lines 4556-4583). -/
def promptFallback (stats : List ColumnStats) : List ℕ :=
  let candidates := (stats.filter fun stat =>
    decide (0 < stat.non_empty) && decide (stat.numeric_ratio < 3 / 5)).insertionSort
      promptStatLe
  let fallback := (candidates.filter fun stat =>
    decide (18 ≤ stat.average_length) || decide (60 ≤ stat.max_length)).map
      fun stat => stat.index
  if fallback.isEmpty then
    match candidates with
    | [] => []
    | best :: _ => [best.index]
  else fallback

/-- The identifier-column fallback sort: average length ascending, ties by
non-empty count descending. -/
def idStatLe (a b : ColumnStats) : Prop :=
  a.average_length < b.average_length ∨
    (a.average_length = b.average_length ∧ b.non_empty ≤ a.non_empty)

instance : DecidableRel idStatLe := fun a b => by
  unfold idStatLe; infer_instance

/-- The identifier fallback's selection loop, capped at 3 picks. -/
def idFallbackLoop : List ColumnStats → List ℕ → List ℕ
  | [], acc => acc
  | stat :: rest, acc =>
    let acc' := if stat.average_length ≤ 36 ∨ 1 / 2 ≤ stat.numeric_ratio then
        acc ++ [stat.index]
      else acc
    if 3 ≤ acc'.length then acc' else idFallbackLoop rest acc'

/-- The identifier-column fallback (lib.rs lines 4585-4613). -/
def idFallback (stats : List ColumnStats) : List ℕ :=
  let candidates := (stats.filter fun stat =>
    decide (0 < stat.non_empty)).insertionSort idStatLe
  let fallback := idFallbackLoop candidates []
  if fallback.isEmpty then
    match candidates with
    | [] => []
    | best :: _ => [best.index]
  else fallback

def suggest_spreadsheet_columns (headers : List String) (rows : List (List String)) :
    List ℕ × List ℕ :=
  let stats := compute_column_stats headers rows
  let prompt_columns :=
    let kw := sort_and_dedup (keyword_columns PROMPT_KEYWORDS headers)
    let fb := if kw.isEmpty then promptFallback stats else kw
    if fb.isEmpty && !headers.isEmpty then fb ++ [headers.length - 1] else fb
  let identifier_columns :=
    let kw := sort_and_dedup (keyword_columns IDENTIFIER_KEYWORDS headers)
    let fb := if kw.isEmpty then idFallback stats else kw
    if fb.isEmpty && !headers.isEmpty then fb ++ [0] else fb
  (sort_and_dedup prompt_columns, sort_and_dedup identifier_columns)

theorem dedupConsec_mem : ∀ (l : List ℕ) (x : ℕ), x ∈ dedupConsec l ↔ x ∈ l
  | [], x => by simp [dedupConsec]
  | [a], x => by simp [dedupConsec]
  | a :: b :: rest, x => by
    rw [dedupConsec]
    by_cases hab : a = b
    · rw [if_pos hab, dedupConsec_mem (b :: rest) x]
      subst hab
      simp [List.mem_cons]
    · rw [if_neg hab]
      simp [List.mem_cons, dedupConsec_mem (b :: rest) x]

theorem dedupConsec_sorted : ∀ (l : List ℕ), l.Pairwise (· ≤ ·) →
    (dedupConsec l).Pairwise (· < ·)
  | [], _ => by simp [dedupConsec]
  | [a], _ => by simp [dedupConsec]
  | a :: b :: rest, h => by
    rw [dedupConsec]
    by_cases hab : a = b
    · rw [if_pos hab]
      exact dedupConsec_sorted (b :: rest) h.tail
    · rw [if_neg hab]
      refine List.Pairwise.cons ?_ (dedupConsec_sorted (b :: rest) h.tail)
      intro x hx
      have hx' : x ∈ b :: rest := (dedupConsec_mem (b :: rest) x).mp hx
      have hab' : a < b :=
        lt_of_le_of_ne (List.rel_of_pairwise_cons h (List.mem_cons_self b rest)) hab
      rcases List.mem_cons.mp hx' with rfl | hx''
      · exact hab'
      · exact hab'.trans_le (List.rel_of_pairwise_cons h.tail hx'')

theorem sort_and_dedup_sorted (values : List ℕ) :
    (sort_and_dedup values).Pairwise (· < ·) :=
  dedupConsec_sorted _ (List.sorted_insertionSort (· ≤ ·) values)

theorem sort_and_dedup_mem (values : List ℕ) (x : ℕ) :
    x ∈ sort_and_dedup values ↔ x ∈ values := by
  unfold sort_and_dedup
  rw [dedupConsec_mem]
  exact (List.perm_insertionSort (· ≤ ·) values).mem_iff

theorem keyword_columns_mem {keywords headers : List String} {i : ℕ} {hdr : String}
    (h : headers[i]? = some hdr) (hne : strToLower hdr ≠ "")
    (hkw : (keywords.any fun keyword => containsSubstring (strToLower hdr) keyword) = true) :
    i ∈ keyword_columns keywords headers := by
  unfold keyword_columns
  apply List.mem_filterMap.mpr
  refine ⟨(i, hdr), mem_enum_iff.mpr h, ?_⟩
  rw [if_neg hne, if_pos hkw]

/-- **C9.** Column-role inference returns ascending, deduplicated
(strictly increasing) index lists for both roles, and keyword matching
guarantees that a column titled "Research Interests" is suggested as an
embedding column regardless of its sample values, and a column titled
"Email" as an identifier column. -/
theorem suggest_spreadsheet_columns_spec (headers : List String)
    (rows : List (List String)) :
    (suggest_spreadsheet_columns headers rows).1.Pairwise (· < ·) ∧
    (suggest_spreadsheet_columns headers rows).2.Pairwise (· < ·) ∧
    (∀ i, headers[i]? = some "Research Interests" →
      i ∈ (suggest_spreadsheet_columns headers rows).1) ∧
    (∀ i, headers[i]? = some "Email" →
      i ∈ (suggest_spreadsheet_columns headers rows).2) := by
  refine ⟨sort_and_dedup_sorted _, sort_and_dedup_sorted _, ?_, ?_⟩
  · intro i hi
    have hmem : i ∈ keyword_columns PROMPT_KEYWORDS headers :=
      keyword_columns_mem hi (by decide) (by decide)
    have hkw : i ∈ sort_and_dedup (keyword_columns PROMPT_KEYWORDS headers) :=
      (sort_and_dedup_mem _ _).mpr hmem
    have hne : (sort_and_dedup (keyword_columns PROMPT_KEYWORDS headers)).isEmpty = false := by
      cases hcase : sort_and_dedup (keyword_columns PROMPT_KEYWORDS headers) with
      | nil => rw [hcase] at hkw; simp at hkw
      | cons a l => rfl
    show i ∈ sort_and_dedup _
    rw [sort_and_dedup_mem]
    simp only [hne, Bool.false_eq_true, if_false, Bool.false_and]
    exact hkw
  · intro i hi
    have hmem : i ∈ keyword_columns IDENTIFIER_KEYWORDS headers :=
      keyword_columns_mem hi (by decide) (by decide)
    have hkw : i ∈ sort_and_dedup (keyword_columns IDENTIFIER_KEYWORDS headers) :=
      (sort_and_dedup_mem _ _).mpr hmem
    have hne : (sort_and_dedup (keyword_columns IDENTIFIER_KEYWORDS headers)).isEmpty =
        false := by
      cases hcase : sort_and_dedup (keyword_columns IDENTIFIER_KEYWORDS headers) with
      | nil => rw [hcase] at hkw; simp at hkw
      | cons a l => rfl
    show i ∈ sort_and_dedup _
    rw [sort_and_dedup_mem]
    simp only [hne, Bool.false_eq_true, if_false, Bool.false_and]
    exact hkw

/-!
## Concrete evaluations

Sanity checks that the embedded definitions compute the behaviour observed
in the source on small inputs.
-/

example : decode_stdout_line
    (.obj [("model", .str "m"), ("dimension", .num 2), ("rows", .arr [])]) =
    .Response ⟨"m", 2, []⟩ := rfl

example : decode_stdout_line
    (.obj [("type", .str "result"),
           ("payload", .obj [("model", .str "m"), ("dimension", .num 1),
             ("rows", .arr [.obj [("id", .num 0), ("embedding", .arr [.num 1])]])])]) =
    .Response ⟨"m", 1, [⟨0, [1]⟩]⟩ := rfl

example : decode_stdout_line (.obj [("type", .str "error"), ("message", .str "boom")]) =
    .Error "boom" := rfl

example : decode_stdout_line (.str "garbage") = .Error corruptionMessage := rfl

example : decode_stdout_line
    (.obj [("type", .str "error"), ("message", .str "x"),
           ("model", .str "m"), ("dimension", .num 0), ("rows", .arr [])]) =
    .Response ⟨"m", 0, []⟩ := rfl

example : stderr_line_step "warning: xyz\n" none none "" = ("warning: xyz\n", none) := rfl

example : stderr_line_step "PROGRESS {...}" (some ⟨"embedding", none, 1, 0, none, none⟩)
    (some 5) "b" = ("b", some ⟨"embedding", none, 1, 5, none, none⟩) := rfl

example : augment_error "boom" "warning: xyz\n" (some "1") =
    "boom\n\nEmbedding helper stderr:\nwarning: xyz\n\nEmbedding helper exit status: 1" := rfl

example : augment_error "boom" "  \n" none = "boom" := rfl

example :
    run_embedding_helper ⟨.ok 7, fun _ => true, fun _ => .ok ⟨"m", 1, []⟩⟩ none =
    (some 7, [], .ok ⟨"m", 1, []⟩) := rfl

example :
    run_embedding_helper ⟨.ok 7, fun _ => false, fun _ => .error "x"⟩ (some 3) =
    (none, [3, 7], .error "x") := rfl

example :
    run_embedding_helper ⟨.error "no python", fun _ => true, fun _ => .error "x"⟩ none =
    (none, [], .error "no python") := rfl

example : sort_and_dedup [3, 1, 3, 2, 1] = [1, 2, 3] := rfl

example : is_numeric_like " 42.5 " = true := rfl

example : is_numeric_like "a1" = false := rfl

example : header_label ["  ", "X"] 0 = "Column 1" := rfl

example : header_label ["  ", " X "] 1 = "X" := rfl

example : suggest_spreadsheet_columns ["Email", "Research Interests"] [["a@b", "x"]] =
    ([1], [0]) := rfl

example : (buildRowContexts ["H"] [0] [] [[" a "], ["  "], ["b"]]).1.map
    (fun c => (c.row_index, c.text)) = [(0, "a"), (2, "b")] := rfl

example : (buildRowContexts ["H"] [0] [] [[" a "], ["  "], ["b"]]).2 = 1 := rfl

example : rowIdentifiers ["N", "N", "E"] [0, 1, 2] ["ann", "bob", "a@b"] =
    [("N", "ann"), ("E", "a@b")] := rfl

example : cosine_similarity [] [] = none := rfl

example : cosine_similarity [1] [1, 2] = none := rfl

/-- A similarity value with positive dot product (denotes 1). -/
def simHigh : Sim := ⟨1, 1, 1, by norm_num, by norm_num⟩

/-- A similarity value with zero dot product (denotes 0). -/
def simLow : Sim := ⟨0, 1, 1, by norm_num, by norm_num⟩

def demoMatch (r : ℕ) (s : Sim) : FacultyMatchResult := ⟨r, s, [], none, none, none⟩

/- Row 7 is picked by both prompts (similarities 1 and 0), row 3 only by the
first: row 7's occurrences get ranks 1 and 2 with total 2, row 3 gets
rank 1 with total 1. -/
example : (assign_student_rankings
    [[demoMatch 7 simHigh, demoMatch 3 simLow], [demoMatch 7 simLow]]).map
      (fun ms => ms.map fun m => (m.student_rank_for_faculty, m.student_rank_total)) =
    [[(some 1, some 2), (some 1, some 1)], [(some 2, some 2)]] := rfl

end DBBS
